import Mathlib

/-!
Verification of the incremental-connectivity engine (day-8 solution): a
disjoint-set forest with path compression and union-by-size, a globally
sorted candidate-edge list over squared Euclidean distances, and the two
derived queries part1 (component-size product under a bounded number of
union attempts) and part2 (bridging-edge x-coordinate product).

The definitions below are a shallow embedding of the TypeScript source.
Coordinates are modelled as integers and the JavaScript number produced by
`length / 2` (real division) is modelled as a rational.  Mutation of the
parent/size arrays is modelled by explicit state passing on lists; `find`
uses explicit fuel (the number of elements), which under the forest
invariant proved below is always sufficient.
-/

set_option maxHeartbeats 1600000

/-- A parsed input point: one line of three comma-separated coordinates
(the type Box = [number, number, number] of the source). -/
structure Box where
  x : ℤ
  y : ℤ
  z : ℤ
deriving DecidableEq

/-- Squared Euclidean distance between two points (function distanceSqrt of
the source: dx*dx + dy*dy + dz*dz). -/
def distanceSqrt (a b : Box) : ℤ :=
  (a.x - b.x) * (a.x - b.x) + (a.y - b.y) * (a.y - b.y) + (a.z - b.z) * (a.z - b.z)

/-- A candidate edge: the record {i, j, d} pushed by createSortedPairs. -/
structure Pair where
  i : ℕ
  j : ℕ
  d : ℤ
deriving DecidableEq

/-- The unsorted enumeration of candidate edges: outer loop i ascending over
all indices, inner loop j ascending over i+1 .. length-1. -/
def allPairs (boxes : List Box) : List Pair :=
  (List.range boxes.length).flatMap fun i =>
    (List.range' (i + 1) (boxes.length - (i + 1))).map fun j =>
      ⟨i, j, distanceSqrt (boxes.getD i ⟨0, 0, 0⟩) (boxes.getD j ⟨0, 0, 0⟩)⟩

/-- Function createSortedPairs of the source: all pairs, stably sorted
ascending by squared distance with the comparator (a, b) => a.d - b.d,
under which a may precede b exactly when a.d ≤ b.d.  JavaScript
Array.prototype.sort is a stable sort, and a stable sort's output is
uniquely determined by the key order and the input order, so any stable
sorting algorithm is a faithful model; insertion sort is used because it
is structurally recursive, and its stability is proved in spec_c2. -/
def createSortedPairs (boxes : List Box) : List Pair :=
  (allPairs boxes).insertionSort (fun a b => a.d ≤ b.d)

/-- The disjoint-set forest: parent pointers and per-root sizes
(class UnionFind of the source). -/
structure UnionFind where
  parent : List ℕ
  size : List ℕ
deriving DecidableEq

/-- Read a parent pointer; out-of-range indices read as self-parented,
matching that the source never reads out of range on valid inputs. -/
def pget (p : List ℕ) (x : ℕ) : ℕ := p.getD x x

/-- Read a size entry; out-of-range indices read as 0. -/
def sget (s : List ℕ) (x : ℕ) : ℕ := s.getD x 0

/-- The constructor: n singleton sets, parent i = i and size i = 1. -/
def initUF (n : ℕ) : UnionFind := ⟨List.range n, List.replicate n 1⟩

/-- Method find with path compression, with explicit fuel: if parent[x] is
not x, the parent pointer of x is rewritten to the discovered root; the
recursive call runs on the unmodified state, and each level then writes its
own entry, exactly as the source recursion does. -/
def findAux : ℕ → List ℕ → ℕ → List ℕ × ℕ
  | 0, p, x => (p, x)
  | fuel + 1, p, x =>
    if pget p x = x then (p, x)
    else
      let res := findAux fuel p (pget p x)
      (res.1.set x res.2, res.2)

/-- Method UnionFind.find of the source; fuel is the element count, which
the forest invariant proves sufficient. find never touches sizes. -/
def UnionFind.find (uf : UnionFind) (x : ℕ) : UnionFind × ℕ :=
  let res := findAux uf.parent.length uf.parent x
  (⟨res.1, uf.size⟩, res.2)

/-- Method UnionFind.union of the source: two finds, then if the roots
differ the root of the smaller set is attached under the root of the larger
set (on equal sizes root(b) goes under root(a)) and the sizes are summed. -/
def UnionFind.union (uf : UnionFind) (a b : ℕ) : UnionFind × Bool :=
  let fa := uf.find a
  let fb := fa.1.find b
  let ra := fa.2
  let rb := fb.2
  let uf2 := fb.1
  if ra = rb then (uf2, false)
  else
    let w := if sget uf2.size ra < sget uf2.size rb then rb else ra
    let l := if sget uf2.size ra < sget uf2.size rb then ra else rb
    (⟨uf2.parent.set l w, uf2.size.set w (sget uf2.size w + sget uf2.size l)⟩, true)

/-- Pure iteration of the parent map (no compression): follow parent links
k times from x. -/
def iterP (p : List ℕ) : ℕ → ℕ → ℕ
  | 0, x => x
  | k + 1, x => iterP p k (pget p x)

/-- A root is a self-parented index. -/
def isRoot (p : List ℕ) (x : ℕ) : Prop := pget p x = x

instance (p : List ℕ) (x : ℕ) : Decidable (isRoot p x) :=
  decidable_of_iff (pget p x = x) Iff.rfl

/-- Following parent links from x reaches the self-parented index r. -/
def RootedAt (p : List ℕ) (x r : ℕ) : Prop :=
  isRoot p r ∧ ∃ k, iterP p k x = r

/-- Fuelled pure root computation (no compression). -/
def rootF : ℕ → List ℕ → ℕ → ℕ
  | 0, _, x => x
  | f + 1, p, x => if pget p x = x then x else rootF f p (pget p x)

/-- The root of x: pure parent-chasing with fuel equal to the element
count, which the forest invariant proves sufficient. -/
def rootOf (p : List ℕ) (x : ℕ) : ℕ := rootF p.length p x

/-- The number of indices whose find-root is r. -/
def componentCard (p : List ℕ) (r : ℕ) : ℕ :=
  ((Finset.range p.length).filter (fun i => rootOf p i = r)).card

/-- The set of live roots (one per component). -/
def rootSet (p : List ℕ) : Finset ℕ := (Finset.range p.length).image (rootOf p)

/-- Structural well-formedness of the forest: sizes and parents have equal
length, parent pointers stay in range, recorded sizes strictly increase
from a non-root to its parent, and every recorded size is between 1 and n.
These fields are what make parent chains terminate within n steps. -/
def WFPS (uf : UnionFind) : Prop :=
  uf.size.length = uf.parent.length ∧
  (∀ x, x < uf.parent.length → pget uf.parent x < uf.parent.length) ∧
  (∀ x, x < uf.parent.length → pget uf.parent x ≠ x →
    sget uf.size x < sget uf.size (pget uf.parent x)) ∧
  (∀ x, x < uf.parent.length →
    1 ≤ sget uf.size x ∧ sget uf.size x ≤ uf.parent.length)

/-- Size accounting: the size recorded at each root is the number of
indices rooted there. -/
def Counts (uf : UnionFind) : Prop :=
  ∀ r, r < uf.parent.length → isRoot uf.parent r →
    sget uf.size r = componentCard uf.parent r

/-- The forest invariant maintained by every find and union. -/
def ForestInv (uf : UnionFind) : Prop := WFPS uf ∧ Counts uf

/-- An observable operation on the forest, for stating properties of
arbitrary call sequences. -/
inductive UFOp where
  | findOp (x : ℕ)
  | unionOp (a b : ℕ)

/-- Apply one operation, keeping the mutated forest. -/
def applyOp (uf : UnionFind) : UFOp → UnionFind
  | .findOp x => (uf.find x).1
  | .unionOp a b => (uf.union a b).1

/-- Run a call sequence against a fresh forest of n singletons. -/
def applyOps (n : ℕ) (ops : List UFOp) : UnionFind :=
  ops.foldl applyOp (initUF n)

/-- The edge-budget loop of part1: walk the sorted pairs, performing a
union and consuming one unit of budget per pair, while the attempt counter
is below maxConnections = Math.min(1000, length / 2), a rational because
the source divides JavaScript numbers. -/
def part1Loop : List Pair → UnionFind → ℕ → ℚ → UnionFind
  | [], uf, _, _ => uf
  | p :: rest, uf, conn, maxC =>
    if (conn : ℚ) < maxC then part1Loop rest (uf.union p.i p.j).1 (conn + 1) maxC
    else uf

/-- The list of pairs on which part1Loop actually attempts a union. -/
def part1Attempted : List Pair → ℕ → ℚ → List Pair
  | [], _, _ => []
  | p :: rest, conn, maxC =>
    if (conn : ℚ) < maxC then p :: part1Attempted rest (conn + 1) maxC
    else []

/-- The forest part1 has built once its edge budget is exhausted. -/
def part1UF (boxes : List Box) : UnionFind :=
  part1Loop (createSortedPairs boxes) (initUF boxes.length) 0
    (min 1000 ((boxes.length : ℚ) / 2))

/-- One step of the circuit-size tally of part1: Map.set(r, get(r)+1) on an
insertion-ordered association list. -/
def mapIncr : List (ℕ × ℕ) → ℕ → List (ℕ × ℕ)
  | [], k => [(k, 1)]
  | (k', v) :: rest, k =>
    if k' = k then (k', v + 1) :: rest else (k', v) :: mapIncr rest k

/-- Lookup in the insertion-ordered association list. -/
def mget : List (ℕ × ℕ) → ℕ → Option ℕ
  | [], _ => none
  | (k', v) :: rest, k => if k' = k then some v else mget rest k

/-- The tally loop of part1: for each index i, find its root (mutating the
forest by path compression) and bump that root's count. -/
def tallyLoop (uf : UnionFind) : List ℕ → List (ℕ × ℕ) → UnionFind × List (ℕ × ℕ)
  | [], acc => (uf, acc)
  | i :: rest, acc =>
    let f := uf.find i
    tallyLoop f.1 rest (mapIncr acc f.2)

/-- The descending-sorted list of component sizes part1 builds from the
tally map's values with the comparator (a, b) => b - a (stable sort,
modelled like createSortedPairs by insertion sort). -/
def part1Sizes (boxes : List Box) : List ℕ :=
  ((tallyLoop (part1UF boxes) (List.range boxes.length) []).2.map Prod.snd).insertionSort
    (fun a b => b ≤ a)

/-- Function part1 of the source.  The source multiplies sizes[0], sizes[1]
and sizes[2] with plain indexing; when fewer than three components exist
those reads are out of bounds and the JavaScript product is NaN, modelled
here as none. -/
def part1 (boxes : List Box) : Option ℕ :=
  match part1Sizes boxes with
  | s0 :: s1 :: s2 :: _ => some (s0 * s1 * s2)
  | _ => none

/-- The multiset of component sizes of the forest part1 has built, one
entry per live root, each counting the indices rooted there.  This is the
specification-side reading of the size of the set rooted at each index's
find result, grouped by root. -/
def specSizes (boxes : List Box) : Multiset ℕ :=
  (rootSet (part1UF boxes).parent).val.map (componentCard (part1UF boxes).parent)

/-- The loop state of part2: the forest, the live component counter and the
result accumulator. -/
structure P2State where
  uf : UnionFind
  components : ℕ
  result : ℤ
deriving DecidableEq

/-- One iteration of part2's loop: while more than one component is live,
attempt a union; a successful merge decrements the counter, and the merge
that reaches exactly one component records the product of the two points'
x-coordinates. -/
def part2Step (boxes : List Box) (s : P2State) (p : Pair) : P2State :=
  if 1 < s.components then
    let u := s.uf.union p.i p.j
    if u.2 then
      let c := s.components - 1
      ⟨u.1, c,
        if c = 1 then (boxes.getD p.i ⟨0, 0, 0⟩).x * (boxes.getD p.j ⟨0, 0, 0⟩).x
        else s.result⟩
    else ⟨u.1, s.components, s.result⟩
  else s

/-- The initial state of part2's loop. -/
def part2Init (boxes : List Box) : P2State :=
  ⟨initUF boxes.length, boxes.length, 0⟩

/-- Function part2 of the source: walk the sorted pairs from the initial
state and return the accumulated result (0 if no merge ever reached a
single component). -/
def part2 (boxes : List Box) : ℤ :=
  ((createSortedPairs boxes).foldl (part2Step boxes) (part2Init boxes)).result

/-- Running a query twice on the same parsed input, each invocation
building its own fresh forest and candidate list. -/
def runTwice {α : Type} (f : List Box → α) (boxes : List Box) : α × α :=
  (f boxes, f boxes)

/-- Enumeration (lexicographic) order on candidate edges: the order in
which createSortedPairs generates them before sorting. -/
def enumBefore (a b : Pair) : Prop :=
  a.i < b.i ∨ (a.i = b.i ∧ a.j < b.j)

/-! ### Basic facts about reads, writes and parent-chain iteration -/

theorem pget_lt_length {p : List ℕ} {x : ℕ} (h : x < p.length) :
    pget p x = p[x] := by
  simp [pget, List.getD_eq_getElem?_getD, List.getElem?_eq_getElem h]

theorem pget_oob {p : List ℕ} {x : ℕ} (h : p.length ≤ x) : pget p x = x := by
  simp [pget, List.getD_eq_getElem?_getD, List.getElem?_eq_none h]

theorem sget_lt_length {s : List ℕ} {x : ℕ} (h : x < s.length) :
    sget s x = s[x] := by
  simp [sget, List.getD_eq_getElem?_getD, List.getElem?_eq_getElem h]

theorem sget_oob {s : List ℕ} {x : ℕ} (h : s.length ≤ x) : sget s x = 0 := by
  simp [sget, List.getD_eq_getElem?_getD, List.getElem?_eq_none h]

theorem pget_set {p : List ℕ} {x v y : ℕ} (hx : x < p.length) :
    pget (p.set x v) y = if y = x then v else pget p y := by
  simp only [pget, List.getD_eq_getElem?_getD, List.getElem?_set]
  rcases eq_or_ne y x with rfl | hne
  · simp [hx]
  · simp [hne, Ne.symm hne]

theorem sget_set {s : List ℕ} {x v y : ℕ} (hx : x < s.length) :
    sget (s.set x v) y = if y = x then v else sget s y := by
  simp only [sget, List.getD_eq_getElem?_getD, List.getElem?_set]
  rcases eq_or_ne y x with rfl | hne
  · simp [hx]
  · simp [hne, Ne.symm hne]

theorem set_oob {l : List ℕ} {x v : ℕ} (h : l.length ≤ x) : l.set x v = l := by
  apply List.ext_getElem?
  intro i
  simp only [List.getElem?_set]
  rcases eq_or_ne x i with rfl | hne
  · simp [Nat.not_lt.mpr h, h]
  · simp [hne]

theorem set_self {l : List ℕ} {x : ℕ} (h : x < l.length) : l.set x l[x] = l := by
  apply List.ext_getElem?
  intro i
  simp only [List.getElem?_set]
  rcases eq_or_ne x i with rfl | hne
  · simp [h, List.getElem?_eq_getElem h]
  · simp [hne]

theorem iterP_zero (p : List ℕ) (x : ℕ) : iterP p 0 x = x := rfl

theorem iterP_succ (p : List ℕ) (k x : ℕ) :
    iterP p (k + 1) x = iterP p k (pget p x) := rfl

theorem iterP_succ_outer (p : List ℕ) (k x : ℕ) :
    iterP p (k + 1) x = pget p (iterP p k x) := by
  induction k generalizing x with
  | zero => rfl
  | succ k ih => rw [iterP_succ, ih, iterP_succ]

theorem iterP_add (p : List ℕ) (k₁ k₂ x : ℕ) :
    iterP p (k₁ + k₂) x = iterP p k₂ (iterP p k₁ x) := by
  induction k₁ generalizing x with
  | zero => simp [iterP_zero, Nat.zero_add]
  | succ k ih =>
    have h : k + 1 + k₂ = (k + k₂) + 1 := by omega
    rw [h, iterP_succ, ih, iterP_succ]

theorem iterP_of_isRoot {p : List ℕ} {r : ℕ} (h : isRoot p r) (k : ℕ) :
    iterP p k r = r := by
  induction k with
  | zero => rfl
  | succ k ih => rw [iterP_succ, h, ih]

theorem rootedAt_self {p : List ℕ} {r : ℕ} (h : isRoot p r) : RootedAt p r r :=
  ⟨h, 0, rfl⟩

theorem RootedAt.unique {p : List ℕ} {x r r' : ℕ}
    (h : RootedAt p x r) (h' : RootedAt p x r') : r = r' := by
  obtain ⟨hr, k, hk⟩ := h
  obtain ⟨hr', k', hk'⟩ := h'
  rcases Nat.le_total k k' with hle | hle
  · have : iterP p k' x = iterP p (k' - k) (iterP p k x) := by
      rw [← iterP_add]
      congr 1
      omega
    rw [hk, iterP_of_isRoot hr] at this
    rw [← hk', this]
  · have : iterP p k x = iterP p (k - k') (iterP p k' x) := by
      rw [← iterP_add]
      congr 1
      omega
    rw [hk', iterP_of_isRoot hr'] at this
    rw [← hk, this]

theorem rootF_of_isRoot {p : List ℕ} {x : ℕ} (h : isRoot p x) (f : ℕ) :
    rootF f p x = x := by
  have h' : pget p x = x := h
  cases f with
  | zero => rfl
  | succ f => simp [rootF, h']

theorem rootF_succ_of_not_root {p : List ℕ} {x : ℕ} (hx : ¬ isRoot p x) (f : ℕ) :
    rootF (f + 1) p x = rootF f p (pget p x) := by
  have hx' : ¬ pget p x = x := hx
  simp [rootF, hx']

/-! ### Termination of parent chains under the structural invariant -/

theorem WFPS.iterP_lt {uf : UnionFind} (hI : WFPS uf) {x : ℕ}
    (hx : x < uf.parent.length) (k : ℕ) : iterP uf.parent k x < uf.parent.length := by
  induction k generalizing x with
  | zero => exact hx
  | succ k ih => exact ih (hI.2.1 x hx)

theorem WFPS.sget_le_iterP {uf : UnionFind} (hI : WFPS uf) {x : ℕ}
    (hx : x < uf.parent.length) (k : ℕ) :
    sget uf.size x ≤ sget uf.size (iterP uf.parent k x) := by
  induction k with
  | zero => exact Nat.le_refl _
  | succ k ih =>
    rw [iterP_succ_outer]
    by_cases hroot : isRoot uf.parent (iterP uf.parent k x)
    · rw [hroot]
      exact ih
    · exact Nat.le_of_lt (Nat.lt_of_le_of_lt ih
        (hI.2.2.1 _ (hI.iterP_lt hx k) hroot))

theorem WFPS.sget_add_le {uf : UnionFind} (hI : WFPS uf) {x : ℕ}
    (hx : x < uf.parent.length) (k : ℕ)
    (h : ∀ j, j < k → ¬ isRoot uf.parent (iterP uf.parent j x)) :
    sget uf.size x + k ≤ sget uf.size (iterP uf.parent k x) := by
  induction k with
  | zero => simp [iterP_zero]
  | succ k ih =>
    have hk := ih (fun j hj => h j (Nat.lt_succ_of_lt hj))
    have hnr := h k (Nat.lt_succ_self k)
    rw [iterP_succ_outer]
    have := hI.2.2.1 _ (hI.iterP_lt hx k) hnr
    omega

theorem WFPS.reach {uf : UnionFind} (hI : WFPS uf) {x : ℕ}
    (hx : x < uf.parent.length) :
    ∃ k, k < uf.parent.length ∧ isRoot uf.parent (iterP uf.parent k x) := by
  by_contra hcon
  push_neg at hcon
  have hall : ∀ j, j < uf.parent.length → ¬ isRoot uf.parent (iterP uf.parent j x) := by
    intro j hj hroot
    exact (hcon j hj) hroot
  have h1 := hI.sget_add_le hx uf.parent.length hall
  have h2 := (hI.2.2.2 _ (hI.iterP_lt hx uf.parent.length)).2
  have h3 := (hI.2.2.2 x hx).1
  omega

theorem rootF_rooted_of_reach {p : List ℕ} :
    ∀ f x k, k ≤ f → isRoot p (iterP p k x) → RootedAt p x (rootF f p x) := by
  intro f
  induction f with
  | zero =>
    intro x k hk hroot
    interval_cases k
    exact ⟨hroot, 0, rfl⟩
  | succ f ih =>
    intro x k hk hroot
    by_cases hx : isRoot p x
    · rw [rootF_of_isRoot hx]
      exact rootedAt_self hx
    · cases k with
      | zero => exact absurd hroot hx
      | succ k =>
        have h1 : isRoot p (iterP p k (pget p x)) := by
          rw [← iterP_succ]
          exact hroot
        have h2 := ih (pget p x) k (by omega) h1
        obtain ⟨hr, m, hm⟩ := h2
        refine ⟨?_, m + 1, ?_⟩
        · rw [rootF_succ_of_not_root hx]
          exact hr
        · rw [rootF_succ_of_not_root hx, iterP_succ]
          exact hm

theorem WFPS.rootOf_rooted {uf : UnionFind} (hI : WFPS uf) {x : ℕ}
    (hx : x < uf.parent.length) : RootedAt uf.parent x (rootOf uf.parent x) := by
  obtain ⟨k, hk, hroot⟩ := hI.reach hx
  exact rootF_rooted_of_reach uf.parent.length x k (Nat.le_of_lt hk) hroot

theorem rootOf_oob {p : List ℕ} {x : ℕ} (h : p.length ≤ x) : rootOf p x = x := by
  have : isRoot p x := pget_oob h
  exact rootF_of_isRoot this _

theorem rootedAt_oob {p : List ℕ} {x : ℕ} (h : p.length ≤ x) : RootedAt p x x :=
  rootedAt_self (pget_oob h)

theorem WFPS.rootedAt_total {uf : UnionFind} (hI : WFPS uf) (x : ℕ) :
    RootedAt uf.parent x (rootOf uf.parent x) := by
  by_cases hx : x < uf.parent.length
  · exact hI.rootOf_rooted hx
  · rw [rootOf_oob (Nat.le_of_not_lt hx)]
    exact rootedAt_oob (Nat.le_of_not_lt hx)

theorem WFPS.rootOf_eq_iff {uf : UnionFind} (hI : WFPS uf) {x r : ℕ} :
    rootOf uf.parent x = r ↔ RootedAt uf.parent x r := by
  constructor
  · rintro rfl
    exact hI.rootedAt_total x
  · intro h
    exact (hI.rootedAt_total x).unique h

theorem WFPS.isRoot_rootOf {uf : UnionFind} (hI : WFPS uf) (x : ℕ) :
    isRoot uf.parent (rootOf uf.parent x) :=
  (hI.rootedAt_total x).1

theorem WFPS.rootOf_isRoot {uf : UnionFind} (hI : WFPS uf) {r : ℕ}
    (h : isRoot uf.parent r) : rootOf uf.parent r = r :=
  hI.rootOf_eq_iff.mpr (rootedAt_self h)

theorem WFPS.rootOf_lt {uf : UnionFind} (hI : WFPS uf) {x : ℕ}
    (hx : x < uf.parent.length) : rootOf uf.parent x < uf.parent.length := by
  obtain ⟨-, k, hk⟩ := hI.rootOf_rooted hx
  rw [← hk]
  exact hI.iterP_lt hx k

/-! ### Writing a node's parent pointer to its own root preserves the forest -/

theorem not_isRoot_ne {p : List ℕ} {x r : ℕ} (hr : RootedAt p x r)
    (hnx : ¬ isRoot p x) : r ≠ x := by
  intro h
  exact hnx (h ▸ hr.1)

theorem set_to_own_root_eq {p : List ℕ} {x r : ℕ} (hx : x < p.length)
    (hroot : isRoot p x) (hr : RootedAt p x r) : p.set x r = p := by
  have hrx : r = x := RootedAt.unique hr (rootedAt_self hroot)
  rw [hrx]
  have hpx : p[x] = x := by
    rw [← pget_lt_length hx]
    exact hroot
  calc p.set x x = p.set x p[x] := by rw [hpx]
    _ = p := set_self hx

theorem compress_forward {p : List ℕ} {x r : ℕ} (hx : x < p.length)
    (hr : RootedAt p x r) (hnx : ¬ isRoot p x) :
    ∀ k y t, iterP p k y = t → isRoot p t → RootedAt (p.set x r) y t := by
  have hrx : r ≠ x := not_isRoot_ne hr hnx
  intro k
  induction k with
  | zero =>
    intro y t h ht
    rw [iterP_zero] at h
    subst h
    have hyx : y ≠ x := by
      intro h
      exact hnx (h ▸ ht)
    refine ⟨?_, 0, rfl⟩
    rw [isRoot, pget_set hx, if_neg hyx]
    exact ht
  | succ k ih =>
    intro y t h ht
    by_cases hyx : y = x
    · subst hyx
      have htr : t = r := RootedAt.unique ⟨ht, k + 1, h⟩ hr
      subst htr
      refine ⟨?_, 1, ?_⟩
      · rw [isRoot, pget_set hx, if_neg hrx]
        exact hr.1
      · rw [iterP_succ, iterP_zero, pget_set hx, if_pos rfl]
    · rw [iterP_succ] at h
      obtain ⟨ht', m, hm⟩ := ih (pget p y) t h ht
      refine ⟨ht', m + 1, ?_⟩
      rw [iterP_succ, pget_set hx, if_neg hyx]
      exact hm

theorem compress_backward {p : List ℕ} {x r : ℕ} (hx : x < p.length)
    (hr : RootedAt p x r) (hnx : ¬ isRoot p x) :
    ∀ k y t, iterP (p.set x r) k y = t → isRoot (p.set x r) t → RootedAt p y t := by
  have hrx : r ≠ x := not_isRoot_ne hr hnx
  have hxnr : ¬ isRoot (p.set x r) x := by
    rw [isRoot, pget_set hx, if_pos rfl]
    exact hrx
  have htp : ∀ t, isRoot (p.set x r) t → isRoot p t := by
    intro t ht
    have htx : t ≠ x := by
      intro h
      exact hxnr (h ▸ ht)
    rw [isRoot, pget_set hx, if_neg htx] at ht
    exact ht
  intro k
  induction k with
  | zero =>
    intro y t h ht
    rw [iterP_zero] at h
    subst h
    exact rootedAt_self (htp y ht)
  | succ k ih =>
    intro y t h ht
    rw [iterP_succ] at h
    by_cases hyx : y = x
    · subst hyx
      rw [pget_set hx, if_pos rfl] at h
      have h2 : RootedAt p r t := ih r t h ht
      have h3 : t = r := (RootedAt.unique (rootedAt_self hr.1) h2).symm
      subst h3
      exact hr
    · rw [pget_set hx, if_neg hyx] at h
      obtain ⟨ht', m, hm⟩ := ih (pget p y) t h ht
      exact ⟨ht', m + 1, by rw [iterP_succ]; exact hm⟩

theorem rootedAt_congr_of_pres {p q s : List ℕ}
    (hWp : WFPS ⟨p, s⟩) (hWq : WFPS ⟨q, s⟩)
    (hiff : ∀ y t, RootedAt p y t ↔ RootedAt q y t) :
    ∀ i, rootOf q i = rootOf p i := by
  intro i
  exact hWq.rootOf_eq_iff.mpr ((hiff i (rootOf p i)).mp (hWp.rootedAt_total i))

theorem componentCard_congr {p q : List ℕ} (hlen : q.length = p.length)
    (h : ∀ i, rootOf q i = rootOf p i) (t : ℕ) :
    componentCard q t = componentCard p t := by
  unfold componentCard
  rw [hlen]
  congr 1
  apply Finset.filter_congr
  intro i _
  rw [h i]

theorem rootSet_congr {p q : List ℕ} (hlen : q.length = p.length)
    (h : ∀ i, rootOf q i = rootOf p i) : rootSet q = rootSet p := by
  unfold rootSet
  rw [hlen]
  apply Finset.image_congr
  intro i _
  exact h i

theorem sget_lt_root {p s : List ℕ} (hW : WFPS ⟨p, s⟩) {x r : ℕ}
    (hx : x < p.length) (hnx : ¬ isRoot p x) (hr : RootedAt p x r) :
    sget s x < sget s r := by
  obtain ⟨hri, k, hk⟩ := hr
  cases k with
  | zero =>
    rw [iterP_zero] at hk
    exact absurd (hk ▸ hri) hnx
  | succ k =>
    have h1 : sget s x < sget s (pget p x) := hW.2.2.1 x hx hnx
    have h2 : sget s (pget p x) ≤ sget s (iterP p k (pget p x)) :=
      hW.sget_le_iterP (hW.2.1 x hx) k
    rw [← iterP_succ, hk] at h2
    omega

theorem compress_spec {p s : List ℕ} {x r : ℕ} (hI : ForestInv ⟨p, s⟩)
    (hx : x < p.length) (hr : RootedAt p x r) :
    (∀ y t, RootedAt p y t ↔ RootedAt (p.set x r) y t) ∧
      ForestInv ⟨p.set x r, s⟩ ∧ (p.set x r).length = p.length := by
  obtain ⟨hW, hC⟩ := hI
  by_cases hroot : isRoot p x
  · rw [set_to_own_root_eq hx hroot hr]
    exact ⟨fun y t => Iff.rfl, ⟨hW, hC⟩, rfl⟩
  · have hrx : r ≠ x := not_isRoot_ne hr hroot
    have hiff : ∀ y t, RootedAt p y t ↔ RootedAt (p.set x r) y t := by
      intro y t
      constructor
      · rintro ⟨ht, k, hk⟩
        exact compress_forward hx hr hroot k y t hk ht
      · rintro ⟨ht, k, hk⟩
        exact compress_backward hx hr hroot k y t hk ht
    have hlen : (p.set x r).length = p.length := List.length_set p x r
    have hrlt : r < p.length := by
      obtain ⟨-, k, hk⟩ := hr
      rw [← hk]
      exact hW.iterP_lt hx k
    have hW' : WFPS ⟨p.set x r, s⟩ := by
      refine ⟨?_, ?_, ?_, ?_⟩
      · rw [hlen]
        exact hW.1
      · intro y hy
        rw [hlen] at hy ⊢
        rw [pget_set hx]
        rcases eq_or_ne y x with rfl | hne
        · rw [if_pos rfl]
          exact hrlt
        · rw [if_neg hne]
          exact hW.2.1 y hy
      · intro y hy
        rw [hlen] at hy
        rw [pget_set hx]
        rcases eq_or_ne y x with rfl | hne
        · rw [if_pos rfl]
          intro _
          exact sget_lt_root hW hx hroot hr
        · rw [if_neg hne]
          exact hW.2.2.1 y hy
      · intro y hy
        rw [hlen] at hy ⊢
        exact hW.2.2.2 y hy
    have hroots : ∀ i, rootOf (p.set x r) i = rootOf p i :=
      rootedAt_congr_of_pres hW hW' hiff
    refine ⟨hiff, ⟨hW', ?_⟩, hlen⟩
    intro t ht hroott
    have ht2 : t < (p.set x r).length := ht
    have hroott2 : isRoot (p.set x r) t := hroott
    have htx : t ≠ x := by
      intro h
      rw [isRoot, h, pget_set hx, if_pos rfl] at hroott2
      exact hrx hroott2
    have hroott3 : isRoot p t := by
      rw [isRoot, pget_set hx, if_neg htx] at hroott2
      exact hroott2
    rw [hlen] at ht2
    show sget s t = componentCard (p.set x r) t
    rw [componentCard_congr hlen hroots t]
    exact hC t ht2 hroott3

/-! ### Correctness of find (returns the root, preserves the forest) -/

theorem findAux_succ_root {p : List ℕ} {x : ℕ} (h : isRoot p x) (f : ℕ) :
    findAux (f + 1) p x = (p, x) := by
  have h' : pget p x = x := h
  simp [findAux, h']

theorem findAux_succ_not_root {p : List ℕ} {x : ℕ} (h : ¬ isRoot p x) (f : ℕ) :
    findAux (f + 1) p x =
      ((findAux f p (pget p x)).1.set x (findAux f p (pget p x)).2,
        (findAux f p (pget p x)).2) := by
  have h' : ¬ pget p x = x := h
  simp [findAux, h']

theorem findAux_spec {s : List ℕ} :
    ∀ (f : ℕ) (p : List ℕ) (x k : ℕ), ForestInv ⟨p, s⟩ → x < p.length →
      k ≤ f → isRoot p (iterP p k x) →
      RootedAt p x (findAux f p x).2 ∧
        (findAux f p x).1.length = p.length ∧
        (∀ y t, RootedAt p y t ↔ RootedAt (findAux f p x).1 y t) ∧
        ForestInv ⟨(findAux f p x).1, s⟩ := by
  intro f
  induction f with
  | zero =>
    intro p x k hI hx hk hroot
    interval_cases k
    rw [iterP_zero] at hroot
    exact ⟨rootedAt_self hroot, rfl, fun y t => Iff.rfl, hI⟩
  | succ f ih =>
    intro p x k hI hx hk hroot
    by_cases hrx : isRoot p x
    · rw [findAux_succ_root hrx]
      exact ⟨rootedAt_self hrx, rfl, fun y t => Iff.rfl, hI⟩
    · cases k with
      | zero =>
        rw [iterP_zero] at hroot
        exact absurd hroot hrx
      | succ k =>
        rw [iterP_succ] at hroot
        have hpx : pget p x < p.length := (hI.1).2.1 x hx
        obtain ⟨ihroot, ihlen, ihiff, ihinv⟩ :=
          ih p (pget p x) k hI hpx (by omega) hroot
        set res := findAux f p (pget p x) with hres
        have hrootx : RootedAt p x res.2 := by
          obtain ⟨hri, m, hm⟩ := ihroot
          exact ⟨hri, m + 1, by rw [iterP_succ]; exact hm⟩
        have hrootx' : RootedAt res.1 x res.2 := (ihiff x res.2).mp hrootx
        have hxlen : x < res.1.length := by
          rw [ihlen]
          exact hx
        obtain ⟨ciff, cinv, clen⟩ := compress_spec ihinv hxlen hrootx'
        rw [findAux_succ_not_root hrx]
        refine ⟨hrootx, ?_, ?_, cinv⟩
        · rw [clen, ihlen]
        · intro y t
          exact (ihiff y t).trans (ciff y t)

theorem find_oob {uf : UnionFind} {x : ℕ} (h : uf.parent.length ≤ x) :
    uf.find x = (uf, x) := by
  have hroot : pget uf.parent x = x := pget_oob h
  unfold UnionFind.find
  cases hn : uf.parent.length with
  | zero => simp [findAux]
  | succ m =>
    rw [findAux_succ_root hroot]

theorem find_root_eq {uf : UnionFind} {x : ℕ} (hI : ForestInv uf)
    (hx : x < uf.parent.length) : (uf.find x).2 = rootOf uf.parent x := by
  obtain ⟨k, hk, hroot⟩ := hI.1.reach hx
  have hspec := findAux_spec (s := uf.size) uf.parent.length uf.parent x k
    hI hx (Nat.le_of_lt hk) hroot
  have h1 : (uf.find x).2 = (findAux uf.parent.length uf.parent x).2 := rfl
  rw [h1]
  exact ((hI.1.rootOf_eq_iff).mpr hspec.1).symm

theorem find_spec {uf : UnionFind} (hI : ForestInv uf) (x : ℕ) :
    (uf.find x).2 = rootOf uf.parent x ∧
      (uf.find x).1.size = uf.size ∧
      (uf.find x).1.parent.length = uf.parent.length ∧
      (∀ i, rootOf (uf.find x).1.parent i = rootOf uf.parent i) ∧
      ForestInv (uf.find x).1 := by
  by_cases hx : x < uf.parent.length
  · obtain ⟨k, hk, hroot⟩ := hI.1.reach hx
    have hspec := findAux_spec (s := uf.size) uf.parent.length uf.parent x k
      hI hx (Nat.le_of_lt hk) hroot
    obtain ⟨hrooted, hlen, hiff, hinv⟩ := hspec
    have hp : (uf.find x).1.parent = (findAux uf.parent.length uf.parent x).1 := rfl
    have hs : (uf.find x).1.size = uf.size := rfl
    have hv : (uf.find x).2 = (findAux uf.parent.length uf.parent x).2 := rfl
    refine ⟨?_, hs, ?_, ?_, ?_⟩
    · rw [hv]
      exact ((hI.1.rootOf_eq_iff).mpr hrooted).symm
    · rw [hp]
      exact hlen
    · rw [hp]
      intro i
      exact rootedAt_congr_of_pres (s := uf.size) hI.1 hinv.1 hiff i
    · have : (uf.find x).1 = ⟨(findAux uf.parent.length uf.parent x).1, uf.size⟩ := rfl
      rw [this]
      exact hinv
  · rw [find_oob (Nat.le_of_not_lt hx)]
    exact ⟨(rootOf_oob (Nat.le_of_not_lt hx)).symm, rfl, rfl, fun i => rfl, hI⟩

/-! ### Re-parenting one root under another (the merging write of union) -/

theorem iterP_set_avoid {p : List ℕ} {l w : ℕ} (hln : l < p.length) :
    ∀ k y, (∀ j, j < k → iterP p j y ≠ l) →
      iterP (p.set l w) k y = iterP p k y := by
  intro k
  induction k with
  | zero =>
    intro y _
    rfl
  | succ k ih =>
    intro y havoid
    have hy : y ≠ l := by
      have := havoid 0 (Nat.succ_pos k)
      rw [iterP_zero] at this
      exact this
    rw [iterP_succ, iterP_succ, pget_set hln, if_neg hy]
    apply ih
    intro j hj
    have := havoid (j + 1) (by omega)
    rw [iterP_succ] at this
    exact this

theorem reparent_rootedAt_ne {p : List ℕ} {l w : ℕ} (hln : l < p.length)
    (hl : isRoot p l) {y t : ℕ} (hr : RootedAt p y t) (htl : t ≠ l) :
    RootedAt (p.set l w) y t := by
  obtain ⟨ht, k, hk⟩ := hr
  have havoid : ∀ j, iterP p j y ≠ l := by
    intro j hj
    rcases Nat.le_total j k with hle | hle
    · have : iterP p k y = iterP p (k - j) (iterP p j y) := by
        rw [← iterP_add]
        congr 1
        omega
      rw [hj, iterP_of_isRoot hl] at this
      rw [hk] at this
      exact htl this
    · have : iterP p j y = iterP p (j - k) (iterP p k y) := by
        rw [← iterP_add]
        congr 1
        omega
      rw [hk, iterP_of_isRoot ht] at this
      rw [hj] at this
      exact htl this.symm
  refine ⟨?_, k, ?_⟩
  · rw [isRoot, pget_set hln, if_neg htl]
    exact ht
  · rw [iterP_set_avoid hln k y (fun j _ => havoid j)]
    exact hk

theorem reparent_rootedAt_to {p : List ℕ} {l w : ℕ} (hln : l < p.length)
    (hl : isRoot p l) (hw : isRoot p w) (hne : w ≠ l) {y : ℕ}
    (hr : RootedAt p y l) : RootedAt (p.set l w) y w := by
  obtain ⟨-, hex⟩ := hr
  have hk0 := Nat.find_spec hex
  have hmin := fun j (hj : j < Nat.find hex) => Nat.find_min hex hj
  refine ⟨?_, Nat.find hex + 1, ?_⟩
  · rw [isRoot, pget_set hln, if_neg hne]
    exact hw
  · rw [iterP_succ_outer, iterP_set_avoid hln _ y hmin, hk0, pget_set hln,
      if_pos rfl]

theorem merge_state_spec {p s : List ℕ} {w l : ℕ} (hI : ForestInv ⟨p, s⟩)
    (hw : isRoot p w) (hl : isRoot p l) (hne : w ≠ l)
    (hwn : w < p.length) (hln : l < p.length) :
    ForestInv ⟨p.set l w, s.set w (sget s w + sget s l)⟩ ∧
      (∀ y, rootOf (p.set l w) y = if rootOf p y = l then w else rootOf p y) ∧
      (p.set l w).length = p.length := by
  obtain ⟨hW, hC⟩ := hI
  have hslen : s.length = p.length := hW.1
  have hwsn : w < s.length := by omega
  set p' := p.set l w with hp'
  set s' := s.set w (sget s w + sget s l) with hs'
  have hlen : p'.length = p.length := List.length_set p l w
  have hslen' : s'.length = s.length := List.length_set s w _
  have hsget' : ∀ y, sget s' y = if y = w then sget s w + sget s l else sget s y := by
    intro y
    rw [hs', sget_set hwsn]
  have hpget' : ∀ y, pget p' y = if y = l then w else pget p y := by
    intro y
    rw [hp', pget_set hln]
  -- every node of the new forest is rooted as the remapping says
  have hrooted' : ∀ y, RootedAt p' y (if rootOf p y = l then w else rootOf p y) := by
    intro y
    have htot := hW.rootedAt_total y
    by_cases hyl : rootOf p y = l
    · rw [if_pos hyl]
      exact reparent_rootedAt_to hln hl hw hne (hyl ▸ htot)
    · rw [if_neg hyl]
      exact reparent_rootedAt_ne hln hl htot hyl
  -- the two merged components are disjoint, so the new size fits
  have hdisj : Disjoint
      ((Finset.range p.length).filter (fun i => rootOf p i = w))
      ((Finset.range p.length).filter (fun i => rootOf p i = l)) := by
    rw [Finset.disjoint_left]
    intro i hi1 hi2
    rw [Finset.mem_filter] at hi1 hi2
    exact hne (hi1.2.symm.trans hi2.2)
  have hcards : componentCard p w + componentCard p l ≤ p.length := by
    unfold componentCard
    rw [← Finset.card_union_of_disjoint hdisj]
    calc (((Finset.range p.length).filter (fun i => rootOf p i = w)) ∪
          ((Finset.range p.length).filter (fun i => rootOf p i = l))).card
        ≤ (Finset.range p.length).card := by
          apply Finset.card_le_card
          apply Finset.union_subset (Finset.filter_subset _ _) (Finset.filter_subset _ _)
      _ = p.length := Finset.card_range _
  have hW' : WFPS ⟨p', s'⟩ := by
    refine ⟨?_, ?_, ?_, ?_⟩
    · show s'.length = p'.length
      rw [hslen', hlen]
      exact hslen
    · intro y hy
      show pget p' y < p'.length
      have hy2 : y < p'.length := hy
      rw [hlen] at hy2 ⊢
      rw [hpget' y]
      rcases eq_or_ne y l with rfl | hyl
      · rw [if_pos rfl]
        exact hwn
      · rw [if_neg hyl]
        exact hW.2.1 y hy2
    · intro y hy hpy
      have hy2 : y < p'.length := hy
      rw [hlen] at hy2
      have hpy2 : pget p' y ≠ y := hpy
      show sget s' y < sget s' (pget p' y)
      rw [hpget' y] at hpy2 ⊢
      rcases eq_or_ne y l with rfl | hyl
      · rw [if_pos rfl] at hpy2 ⊢
        have hlw : y ≠ w := Ne.symm hne
        rw [hsget' y, if_neg hlw, hsget' w, if_pos rfl]
        have hposw : 1 ≤ sget s w := (hW.2.2.2 w hwn).1
        omega
      · rw [if_neg hyl] at hpy2 ⊢
        have hyw : y ≠ w := by
          intro h
          rw [h] at hpy2
          exact hpy2 hw
        rw [hsget' y, if_neg hyw]
        have hbase : sget s y < sget s (pget p y) := hW.2.2.1 y hy2 hpy2
        rcases eq_or_ne (pget p y) w with hpw | hpw
        · rw [hsget' (pget p y), if_pos hpw]
          rw [hpw] at hbase
          omega
        · rw [hsget' (pget p y), if_neg hpw]
          exact hbase
    · intro y hy
      have hy2 : y < p'.length := hy
      rw [hlen] at hy2
      show 1 ≤ sget s' y ∧ sget s' y ≤ p'.length
      rw [hlen, hsget' y]
      by_cases hyw : y = w
      · rw [if_pos hyw]
        have h1 : 1 ≤ sget s w := (hW.2.2.2 w hwn).1
        have h2 : sget s w = componentCard p w := hC w hwn hw
        have h3 : sget s l = componentCard p l := hC l hln hl
        omega
      · rw [if_neg hyw]
        exact hW.2.2.2 y hy2
  have hroots' : ∀ y, rootOf p' y = if rootOf p y = l then w else rootOf p y := by
    intro y
    exact (WFPS.rootOf_eq_iff hW').mpr (hrooted' y)
  refine ⟨⟨hW', ?_⟩, hroots', hlen⟩
  intro t ht hroott
  have ht2 : t < p'.length := ht
  rw [hlen] at ht2
  have hroott2 : isRoot p' t := hroott
  rw [isRoot, hpget' t] at hroott2
  by_cases htl : t = l
  · exfalso
    rw [if_pos htl] at hroott2
    rw [htl] at hroott2
    exact hne hroott2
  · rw [if_neg htl] at hroott2
    show sget s' t = componentCard p' t
    unfold componentCard
    rw [hlen, hsget' t]
    by_cases htw : t = w
    · subst htw
      rw [if_pos rfl]
      have hfe : (Finset.range p.length).filter (fun i => rootOf p' i = t) =
          ((Finset.range p.length).filter (fun i => rootOf p i = t)) ∪
            ((Finset.range p.length).filter (fun i => rootOf p i = l)) := by
        ext i
        simp only [Finset.mem_filter, Finset.mem_union]
        rw [hroots' i]
        constructor
        · rintro ⟨hir, hv⟩
          by_cases h : rootOf p i = l
          · exact Or.inr ⟨hir, h⟩
          · rw [if_neg h] at hv
            exact Or.inl ⟨hir, hv⟩
        · rintro (⟨hir, hv⟩ | ⟨hir, hv⟩)
          · refine ⟨hir, ?_⟩
            rw [hv]
            by_cases h : t = l
            · rw [if_pos h]
            · rw [if_neg h]
          · exact ⟨hir, by rw [if_pos hv]⟩
      rw [hfe, Finset.card_union_of_disjoint hdisj]
      rw [hC t hwn hw, hC l hln hl]
      rfl
    · rw [if_neg htw]
      have hfe : (Finset.range p.length).filter (fun i => rootOf p' i = t) =
          (Finset.range p.length).filter (fun i => rootOf p i = t) := by
        ext i
        simp only [Finset.mem_filter]
        rw [hroots' i]
        constructor
        · rintro ⟨hir, hv⟩
          refine ⟨hir, ?_⟩
          by_cases h : rootOf p i = l
          · rw [if_pos h] at hv
            exact absurd hv.symm htw
          · rw [if_neg h] at hv
            exact hv
        · rintro ⟨hir, hv⟩
          refine ⟨hir, ?_⟩
          have h : ¬ rootOf p i = l := by
            rw [hv]
            exact htl
          rw [if_neg h]
          exact hv
      rw [hfe]
      exact hC t ht2 hroott2

/-! ### Unfolding union into its two branches -/

theorem union_of_eq {uf : UnionFind} {a b : ℕ}
    (h : (uf.find a).2 = ((uf.find a).1.find b).2) :
    uf.union a b = (((uf.find a).1.find b).1, false) := by
  unfold UnionFind.union
  rw [if_pos h]

theorem union_of_ne {uf : UnionFind} {a b : ℕ}
    (h : (uf.find a).2 ≠ ((uf.find a).1.find b).2) :
    uf.union a b =
      (⟨((uf.find a).1.find b).1.parent.set
          (if sget ((uf.find a).1.find b).1.size (uf.find a).2 <
              sget ((uf.find a).1.find b).1.size ((uf.find a).1.find b).2
            then (uf.find a).2 else ((uf.find a).1.find b).2)
          (if sget ((uf.find a).1.find b).1.size (uf.find a).2 <
              sget ((uf.find a).1.find b).1.size ((uf.find a).1.find b).2
            then ((uf.find a).1.find b).2 else (uf.find a).2),
        ((uf.find a).1.find b).1.size.set
          (if sget ((uf.find a).1.find b).1.size (uf.find a).2 <
              sget ((uf.find a).1.find b).1.size ((uf.find a).1.find b).2
            then ((uf.find a).1.find b).2 else (uf.find a).2)
          (sget ((uf.find a).1.find b).1.size
              (if sget ((uf.find a).1.find b).1.size (uf.find a).2 <
                  sget ((uf.find a).1.find b).1.size ((uf.find a).1.find b).2
                then ((uf.find a).1.find b).2 else (uf.find a).2) +
            sget ((uf.find a).1.find b).1.size
              (if sget ((uf.find a).1.find b).1.size (uf.find a).2 <
                  sget ((uf.find a).1.find b).1.size ((uf.find a).1.find b).2
                then (uf.find a).2 else ((uf.find a).1.find b).2))⟩,
        true) := by
  unfold UnionFind.union
  rw [if_neg h]

/-! ### Semantic description of union -/

theorem find_snd_rootOf {uf : UnionFind} (hI : ForestInv uf) (x : ℕ) :
    (uf.find x).2 = rootOf uf.parent x := (find_spec hI x).1

theorem find_fst_inv {uf : UnionFind} (hI : ForestInv uf) (x : ℕ) :
    ForestInv (uf.find x).1 := (find_spec hI x).2.2.2.2

theorem find_fst_size {uf : UnionFind} (hI : ForestInv uf) (x : ℕ) :
    (uf.find x).1.size = uf.size := (find_spec hI x).2.1

theorem find_fst_length {uf : UnionFind} (hI : ForestInv uf) (x : ℕ) :
    (uf.find x).1.parent.length = uf.parent.length := (find_spec hI x).2.2.1

theorem find_fst_roots {uf : UnionFind} (hI : ForestInv uf) (x : ℕ) :
    ∀ i, rootOf (uf.find x).1.parent i = rootOf uf.parent i :=
  (find_spec hI x).2.2.2.1

theorem union_noop_spec {uf : UnionFind} (hI : ForestInv uf) {a b : ℕ}
    (heq : rootOf uf.parent a = rootOf uf.parent b) :
    uf.union a b = (((uf.find a).1.find b).1, false) := by
  apply union_of_eq
  rw [find_snd_rootOf hI a, find_snd_rootOf (find_fst_inv hI a) b,
    find_fst_roots hI a b]
  exact heq

theorem union_find_find_inv {uf : UnionFind} (hI : ForestInv uf) (a b : ℕ) :
    ForestInv ((uf.find a).1.find b).1 :=
  find_fst_inv (find_fst_inv hI a) b

theorem union_state_oob {uf : UnionFind} (hI : ForestInv uf) {a b : ℕ}
    (hne : rootOf uf.parent a ≠ rootOf uf.parent b)
    (hoob : uf.parent.length ≤ a ∨ uf.parent.length ≤ b) :
    (uf.union a b).1 = ((uf.find a).1.find b).1 ∧ (uf.union a b).2 = true := by
  have hI1 : ForestInv (uf.find a).1 := find_fst_inv hI a
  have hI2 : ForestInv ((uf.find a).1.find b).1 := find_fst_inv hI1 b
  have hra : (uf.find a).2 = rootOf uf.parent a := find_snd_rootOf hI a
  have hrb : ((uf.find a).1.find b).2 = rootOf uf.parent b := by
    rw [find_snd_rootOf hI1 b, find_fst_roots hI a b]
  have hslen : uf.size.length = uf.parent.length := hI.1.1
  have hu2size : ((uf.find a).1.find b).1.size = uf.size := by
    rw [find_fst_size hI1 b, find_fst_size hI a]
  have hu2plen : ((uf.find a).1.find b).1.parent.length = uf.parent.length := by
    rw [find_fst_length hI1 b, find_fst_length hI a]
  have hne' : (uf.find a).2 ≠ ((uf.find a).1.find b).2 := by
    rw [hra, hrb]
    exact hne
  rw [union_of_ne hne']
  refine ⟨?_, rfl⟩
  by_cases han : uf.parent.length ≤ a
  · have hraa : rootOf uf.parent a = a := rootOf_oob han
    have hsa : sget ((uf.find a).1.find b).1.size (uf.find a).2 = 0 := by
      rw [hu2size, hra, hraa]
      exact sget_oob (by omega)
    by_cases hbn : b < uf.parent.length
    · have hrblt : rootOf uf.parent b < uf.parent.length := hI.1.rootOf_lt hbn
      have hsb : 1 ≤ sget ((uf.find a).1.find b).1.size ((uf.find a).1.find b).2 := by
        rw [hu2size, hrb]
        exact (hI.1.2.2.2 _ hrblt).1
      have hcond : sget ((uf.find a).1.find b).1.size (uf.find a).2 <
          sget ((uf.find a).1.find b).1.size ((uf.find a).1.find b).2 := by
        omega
      simp only [if_pos hcond]
      have hset1 : ((uf.find a).1.find b).1.parent.set (uf.find a).2
          ((uf.find a).1.find b).2 = ((uf.find a).1.find b).1.parent := by
        apply set_oob
        rw [hu2plen, hra, hraa]
        exact han
      have hset2 : ((uf.find a).1.find b).1.size.set ((uf.find a).1.find b).2
          (sget ((uf.find a).1.find b).1.size ((uf.find a).1.find b).2 +
            sget ((uf.find a).1.find b).1.size (uf.find a).2) =
          ((uf.find a).1.find b).1.size := by
        rw [hsa, Nat.add_zero]
        have hblt : ((uf.find a).1.find b).2 < ((uf.find a).1.find b).1.size.length := by
          rw [hu2size, hslen, hrb]
          exact hrblt
        rw [sget_lt_length hblt]
        exact set_self hblt
      rw [hset1, hset2]
    · have hrbb : rootOf uf.parent b = b := rootOf_oob (by omega)
      have hsb : sget ((uf.find a).1.find b).1.size ((uf.find a).1.find b).2 = 0 := by
        rw [hu2size, hrb, hrbb]
        exact sget_oob (by omega)
      have hcond : ¬ (sget ((uf.find a).1.find b).1.size (uf.find a).2 <
          sget ((uf.find a).1.find b).1.size ((uf.find a).1.find b).2) := by
        omega
      simp only [if_neg hcond]
      have hset1 : ((uf.find a).1.find b).1.parent.set ((uf.find a).1.find b).2
          (uf.find a).2 = ((uf.find a).1.find b).1.parent := by
        apply set_oob
        rw [hu2plen, hrb, hrbb]
        omega
      have hset2 : ((uf.find a).1.find b).1.size.set (uf.find a).2
          (sget ((uf.find a).1.find b).1.size (uf.find a).2 +
            sget ((uf.find a).1.find b).1.size ((uf.find a).1.find b).2) =
          ((uf.find a).1.find b).1.size := by
        apply set_oob
        rw [hu2size, hslen, hra, hraa]
        exact han
      rw [hset1, hset2]
  · have ha : a < uf.parent.length := by omega
    have hbn : uf.parent.length ≤ b := by
      rcases hoob with h | h
      · omega
      · exact h
    have hrbb : rootOf uf.parent b = b := rootOf_oob hbn
    have hralt : rootOf uf.parent a < uf.parent.length := hI.1.rootOf_lt ha
    have hsa : 1 ≤ sget ((uf.find a).1.find b).1.size (uf.find a).2 := by
      rw [hu2size, hra]
      exact (hI.1.2.2.2 _ hralt).1
    have hsb : sget ((uf.find a).1.find b).1.size ((uf.find a).1.find b).2 = 0 := by
      rw [hu2size, hrb, hrbb]
      exact sget_oob (by omega)
    have hcond : ¬ (sget ((uf.find a).1.find b).1.size (uf.find a).2 <
        sget ((uf.find a).1.find b).1.size ((uf.find a).1.find b).2) := by
      omega
    simp only [if_neg hcond]
    have hset1 : ((uf.find a).1.find b).1.parent.set ((uf.find a).1.find b).2
        (uf.find a).2 = ((uf.find a).1.find b).1.parent := by
      apply set_oob
      rw [hu2plen, hrb, hrbb]
      exact hbn
    have hset2 : ((uf.find a).1.find b).1.size.set (uf.find a).2
        (sget ((uf.find a).1.find b).1.size (uf.find a).2 +
          sget ((uf.find a).1.find b).1.size ((uf.find a).1.find b).2) =
        ((uf.find a).1.find b).1.size := by
      rw [hsb, Nat.add_zero]
      have halt : (uf.find a).2 < ((uf.find a).1.find b).1.size.length := by
        rw [hu2size, hslen, hra]
        exact hralt
      rw [sget_lt_length halt]
      exact set_self halt
    rw [hset1, hset2]


theorem union_merge_full {uf : UnionFind} (hI : ForestInv uf) {a b : ℕ}
    (ha : a < uf.parent.length) (hb : b < uf.parent.length)
    (hne : rootOf uf.parent a ≠ rootOf uf.parent b) :
    (uf.union a b).2 = true ∧
      ForestInv (uf.union a b).1 ∧
      (uf.union a b).1.parent.length = uf.parent.length ∧
      (∀ y, rootOf (uf.union a b).1.parent y =
        if rootOf uf.parent y =
            (if componentCard uf.parent (rootOf uf.parent a) <
                componentCard uf.parent (rootOf uf.parent b)
              then rootOf uf.parent a else rootOf uf.parent b)
          then (if componentCard uf.parent (rootOf uf.parent a) <
                componentCard uf.parent (rootOf uf.parent b)
              then rootOf uf.parent b else rootOf uf.parent a)
          else rootOf uf.parent y) ∧
      pget (uf.union a b).1.parent
          (if componentCard uf.parent (rootOf uf.parent a) <
              componentCard uf.parent (rootOf uf.parent b)
            then rootOf uf.parent a else rootOf uf.parent b) =
        (if componentCard uf.parent (rootOf uf.parent a) <
            componentCard uf.parent (rootOf uf.parent b)
          then rootOf uf.parent b else rootOf uf.parent a) ∧
      sget (uf.union a b).1.size
          (if componentCard uf.parent (rootOf uf.parent a) <
              componentCard uf.parent (rootOf uf.parent b)
            then rootOf uf.parent b else rootOf uf.parent a) =
        componentCard uf.parent (rootOf uf.parent a) +
          componentCard uf.parent (rootOf uf.parent b) := by
  have hI1 : ForestInv (uf.find a).1 := find_fst_inv hI a
  have hI2 : ForestInv ((uf.find a).1.find b).1 := find_fst_inv hI1 b
  have hra : (uf.find a).2 = rootOf uf.parent a := find_snd_rootOf hI a
  have hrb : ((uf.find a).1.find b).2 = rootOf uf.parent b := by
    rw [find_snd_rootOf hI1 b, find_fst_roots hI a b]
  have hslen : uf.size.length = uf.parent.length := hI.1.1
  have hu2size : ((uf.find a).1.find b).1.size = uf.size := by
    rw [find_fst_size hI1 b, find_fst_size hI a]
  have hu2plen : ((uf.find a).1.find b).1.parent.length = uf.parent.length := by
    rw [find_fst_length hI1 b, find_fst_length hI a]
  have hroots2 : ∀ i, rootOf ((uf.find a).1.find b).1.parent i = rootOf uf.parent i := by
    intro i
    rw [find_fst_roots hI1 b, find_fst_roots hI a]
  have hralt : rootOf uf.parent a < uf.parent.length := hI.1.rootOf_lt ha
  have hrblt : rootOf uf.parent b < uf.parent.length := hI.1.rootOf_lt hb
  have hraroot : isRoot uf.parent (rootOf uf.parent a) := hI.1.isRoot_rootOf a
  have hrbroot : isRoot uf.parent (rootOf uf.parent b) := hI.1.isRoot_rootOf b
  have hCA : sget uf.size (rootOf uf.parent a) = componentCard uf.parent (rootOf uf.parent a) :=
    hI.2 _ hralt hraroot
  have hCB : sget uf.size (rootOf uf.parent b) = componentCard uf.parent (rootOf uf.parent b) :=
    hI.2 _ hrblt hrbroot
  have hcc : ∀ t, componentCard ((uf.find a).1.find b).1.parent t = componentCard uf.parent t :=
    componentCard_congr hu2plen hroots2
  have hraroot2 : isRoot ((uf.find a).1.find b).1.parent (rootOf uf.parent a) := by
    have h1 := hI2.1.isRoot_rootOf (rootOf uf.parent a)
    rw [hroots2, hI.1.rootOf_isRoot hraroot] at h1
    exact h1
  have hrbroot2 : isRoot ((uf.find a).1.find b).1.parent (rootOf uf.parent b) := by
    have h1 := hI2.1.isRoot_rootOf (rootOf uf.parent b)
    rw [hroots2, hI.1.rootOf_isRoot hrbroot] at h1
    exact h1
  have hne' : (uf.find a).2 ≠ ((uf.find a).1.find b).2 := by
    rw [hra, hrb]
    exact hne
  have hcondiff : (sget ((uf.find a).1.find b).1.size (rootOf uf.parent a) <
      sget ((uf.find a).1.find b).1.size (rootOf uf.parent b)) ↔
      (componentCard uf.parent (rootOf uf.parent a) <
        componentCard uf.parent (rootOf uf.parent b)) := by
    rw [hu2size, hCA, hCB]
  rw [union_of_ne hne']
  simp only [hra, hrb]
  by_cases hc : componentCard uf.parent (rootOf uf.parent a) <
      componentCard uf.parent (rootOf uf.parent b)
  · have hcond : sget ((uf.find a).1.find b).1.size (rootOf uf.parent a) <
        sget ((uf.find a).1.find b).1.size (rootOf uf.parent b) :=
      hcondiff.mpr hc
    simp only [if_pos hcond, if_pos hc]
    obtain ⟨minv, mroots, mlen⟩ := merge_state_spec
      (p := ((uf.find a).1.find b).1.parent) (s := ((uf.find a).1.find b).1.size)
      hI2 hrbroot2 hraroot2 (Ne.symm hne) (by rw [hu2plen]; exact hrblt)
      (by rw [hu2plen]; exact hralt)
    refine ⟨trivial, minv, ?_, ?_, ?_, ?_⟩
    · show (((uf.find a).1.find b).1.parent.set (rootOf uf.parent a)
        (rootOf uf.parent b)).length = uf.parent.length
      rw [List.length_set]
      exact hu2plen
    · intro y
      have h1 := mroots y
      rw [hroots2 y] at h1
      show rootOf (((uf.find a).1.find b).1.parent.set (rootOf uf.parent a)
        (rootOf uf.parent b)) y =
        if rootOf uf.parent y = rootOf uf.parent a then rootOf uf.parent b
        else rootOf uf.parent y
      exact h1
    · show pget (((uf.find a).1.find b).1.parent.set (rootOf uf.parent a)
        (rootOf uf.parent b)) (rootOf uf.parent a) = rootOf uf.parent b
      rw [pget_set (by rw [hu2plen]; exact hralt), if_pos rfl]
    · show sget (((uf.find a).1.find b).1.size.set (rootOf uf.parent b)
        (sget ((uf.find a).1.find b).1.size (rootOf uf.parent b) +
          sget ((uf.find a).1.find b).1.size (rootOf uf.parent a)))
        (rootOf uf.parent b) =
        componentCard uf.parent (rootOf uf.parent a) +
          componentCard uf.parent (rootOf uf.parent b)
      rw [sget_set (by rw [hu2size, hslen]; exact hrblt), if_pos rfl,
        hu2size, hCA, hCB]
      omega
  · have hcond : ¬ (sget ((uf.find a).1.find b).1.size (rootOf uf.parent a) <
        sget ((uf.find a).1.find b).1.size (rootOf uf.parent b)) := by
      intro h
      exact hc (hcondiff.mp h)
    simp only [if_neg hcond, if_neg hc]
    obtain ⟨minv, mroots, mlen⟩ := merge_state_spec
      (p := ((uf.find a).1.find b).1.parent) (s := ((uf.find a).1.find b).1.size)
      hI2 hraroot2 hrbroot2 hne (by rw [hu2plen]; exact hralt)
      (by rw [hu2plen]; exact hrblt)
    refine ⟨trivial, minv, ?_, ?_, ?_, ?_⟩
    · show (((uf.find a).1.find b).1.parent.set (rootOf uf.parent b)
        (rootOf uf.parent a)).length = uf.parent.length
      rw [List.length_set]
      exact hu2plen
    · intro y
      have h1 := mroots y
      rw [hroots2 y] at h1
      show rootOf (((uf.find a).1.find b).1.parent.set (rootOf uf.parent b)
        (rootOf uf.parent a)) y =
        if rootOf uf.parent y = rootOf uf.parent b then rootOf uf.parent a
        else rootOf uf.parent y
      exact h1
    · show pget (((uf.find a).1.find b).1.parent.set (rootOf uf.parent b)
        (rootOf uf.parent a)) (rootOf uf.parent b) = rootOf uf.parent a
      rw [pget_set (by rw [hu2plen]; exact hrblt), if_pos rfl]
    · show sget (((uf.find a).1.find b).1.size.set (rootOf uf.parent a)
        (sget ((uf.find a).1.find b).1.size (rootOf uf.parent a) +
          sget ((uf.find a).1.find b).1.size (rootOf uf.parent b)))
        (rootOf uf.parent a) =
        componentCard uf.parent (rootOf uf.parent a) +
          componentCard uf.parent (rootOf uf.parent b)
      rw [sget_set (by rw [hu2size, hslen]; exact hralt), if_pos rfl,
        hu2size, hCA, hCB]

theorem union_inv {uf : UnionFind} (hI : ForestInv uf) (a b : ℕ) :
    ForestInv (uf.union a b).1 := by
  by_cases heq : rootOf uf.parent a = rootOf uf.parent b
  · rw [union_noop_spec hI heq]
    exact union_find_find_inv hI a b
  · by_cases ha : a < uf.parent.length
    · by_cases hb : b < uf.parent.length
      · exact (union_merge_full hI ha hb heq).2.1
      · rw [(union_state_oob hI heq (Or.inr (by omega))).1]
        exact union_find_find_inv hI a b
    · rw [(union_state_oob hI heq (Or.inl (by omega))).1]
      exact union_find_find_inv hI a b

theorem union_snd_iff {uf : UnionFind} (hI : ForestInv uf) (a b : ℕ) :
    (uf.union a b).2 = true ↔ rootOf uf.parent a ≠ rootOf uf.parent b := by
  by_cases heq : rootOf uf.parent a = rootOf uf.parent b
  · rw [union_noop_spec hI heq]
    simp [heq]
  · constructor
    · intro _
      exact heq
    · intro _
      by_cases ha : a < uf.parent.length
      · by_cases hb : b < uf.parent.length
        · exact (union_merge_full hI ha hb heq).1
        · exact (union_state_oob hI heq (Or.inr (by omega))).2
      · exact (union_state_oob hI heq (Or.inl (by omega))).2

theorem union_parent_length {uf : UnionFind} (hI : ForestInv uf) (a b : ℕ) :
    (uf.union a b).1.parent.length = uf.parent.length := by
  have h2 : ((uf.find a).1.find b).1.parent.length = uf.parent.length := by
    rw [find_fst_length (find_fst_inv hI a) b, find_fst_length hI a]
  by_cases heq : rootOf uf.parent a = rootOf uf.parent b
  · rw [union_noop_spec hI heq]
    exact h2
  · by_cases ha : a < uf.parent.length
    · by_cases hb : b < uf.parent.length
      · exact (union_merge_full hI ha hb heq).2.2.1
      · rw [(union_state_oob hI heq (Or.inr (by omega))).1]
        exact h2
    · rw [(union_state_oob hI heq (Or.inl (by omega))).1]
      exact h2

theorem initUF_inv (n : ℕ) : ForestInv (initUF n) := by
  have hplen : (initUF n).parent.length = n := List.length_range n
  have hslen : (initUF n).size.length = n := List.length_replicate n 1
  have hpget : ∀ x, x < n → pget (initUF n).parent x = x := by
    intro x hx
    have : x < (initUF n).parent.length := by rw [hplen]; exact hx
    rw [pget_lt_length this]
    simp [initUF]
  have hsget : ∀ x, x < n → sget (initUF n).size x = 1 := by
    intro x hx
    have : x < (initUF n).size.length := by rw [hslen]; exact hx
    rw [sget_lt_length this]
    simp [initUF]
  have hroot : ∀ x, x < n → isRoot (initUF n).parent x := by
    intro x hx
    exact hpget x hx
  have hrootOf : ∀ x, x < n → rootOf (initUF n).parent x = x := by
    intro x hx
    exact rootF_of_isRoot (hroot x hx) _
  constructor
  · refine ⟨by rw [hplen, hslen], ?_, ?_, ?_⟩
    · intro x hx
      rw [hplen] at hx
      rw [hpget x hx, ← hplen] at *
      omega
    · intro x hx hne
      rw [hplen] at hx
      exact absurd (hpget x hx) hne
    · intro x hx
      rw [hplen] at hx
      rw [hsget x hx, hplen]
      omega
  · intro r hr hrroot
    rw [hplen] at hr
    rw [hsget r hr]
    unfold componentCard
    rw [hplen]
    have : (Finset.range n).filter (fun i => rootOf (initUF n).parent i = r) = {r} := by
      ext i
      simp only [Finset.mem_filter, Finset.mem_range, Finset.mem_singleton]
      constructor
      · rintro ⟨hi, hroot2⟩
        rw [hrootOf i hi] at hroot2
        exact hroot2
      · intro h
        rw [h]
        exact ⟨hr, hrootOf r hr⟩
    rw [this]
    rfl

theorem applyOps_inv (n : ℕ) (ops : List UFOp) : ForestInv (applyOps n ops) := by
  unfold applyOps
  generalize hstart : initUF n = uf0
  have h0 : ForestInv uf0 := hstart ▸ initUF_inv n
  clear hstart
  induction ops generalizing uf0 with
  | nil => exact h0
  | cons op rest ih =>
    rw [List.foldl_cons]
    apply ih
    cases op with
    | findOp x => exact find_fst_inv h0 x
    | unionOp a b => exact union_inv h0 a b

/-! ### The candidate edge list: completeness, order, stability -/

theorem mem_allPairs {boxes : List Box} {pr : Pair} :
    pr ∈ allPairs boxes ↔
      pr.i < pr.j ∧ pr.j < boxes.length ∧
        pr.d = distanceSqrt (boxes.getD pr.i ⟨0, 0, 0⟩) (boxes.getD pr.j ⟨0, 0, 0⟩) := by
  obtain ⟨pi, pj, pd⟩ := pr
  unfold allPairs
  rw [List.mem_flatMap]
  simp only
  constructor
  · rintro ⟨i, hi, hmem⟩
    rw [List.mem_map] at hmem
    obtain ⟨j, hj, hpr⟩ := hmem
    rw [List.mem_range] at hi
    rw [List.mem_range'] at hj
    obtain ⟨t, ht, hjt⟩ := hj
    obtain ⟨hi2, hj2, hd2⟩ := Pair.mk.injEq .. ▸ hpr
    subst hi2
    subst hj2
    subst hd2
    exact ⟨by omega, by omega, rfl⟩
  · rintro ⟨hij, hjn, hd⟩
    refine ⟨pi, ?_, ?_⟩
    · rw [List.mem_range]
      omega
    · rw [List.mem_map]
      refine ⟨pj, ?_, ?_⟩
      · rw [List.mem_range']
        exact ⟨pj - (pi + 1), by omega, by omega⟩
      · rw [hd]

theorem allPairs_pairwise_enum (boxes : List Box) :
    (allPairs boxes).Pairwise enumBefore := by
  unfold allPairs
  rw [List.pairwise_flatMap]
  constructor
  · intro i _
    apply List.Pairwise.map
    · intro a b hab
      exact Or.inr ⟨rfl, hab⟩
    · exact List.pairwise_lt_range' _ _
  · apply List.Pairwise.imp ?_ (List.pairwise_lt_range boxes.length)
    intro a b hab x hx y hy
    rw [List.mem_map] at hx hy
    obtain ⟨jx, -, hx⟩ := hx
    obtain ⟨jy, -, hy⟩ := hy
    subst hx
    subst hy
    exact Or.inl hab

theorem enumBefore_ne {a b : Pair} (h : enumBefore a b) : a ≠ b := by
  intro he
  subst he
  rcases h with h | ⟨-, h⟩ <;> omega

theorem allPairs_nodup (boxes : List Box) : (allPairs boxes).Nodup :=
  (allPairs_pairwise_enum boxes).imp enumBefore_ne

theorem list_range_map_sum (g : ℕ → ℕ) (n : ℕ) :
    ((List.range n).map g).sum = ∑ i ∈ Finset.range n, g i := by
  induction n with
  | zero => rfl
  | succ n ih =>
    rw [List.range_succ, List.map_append, List.sum_append, Finset.sum_range_succ, ih]
    simp

theorem allPairs_length (boxes : List Box) :
    (allPairs boxes).length = boxes.length.choose 2 := by
  unfold allPairs
  rw [List.length_flatMap]
  have h1 : (List.map (List.length ∘ fun i =>
      (List.range' (i + 1) (boxes.length - (i + 1))).map (fun j =>
        (⟨i, j, distanceSqrt (boxes.getD i ⟨0, 0, 0⟩) (boxes.getD j ⟨0, 0, 0⟩)⟩ : Pair)))
      (List.range boxes.length)) =
      (List.range boxes.length).map (fun i => boxes.length - (i + 1)) := by
    apply List.map_congr_left
    intro i _
    simp [List.length_map, List.length_range']
  rw [h1, list_range_map_sum]
  have h2 : ∀ i ∈ Finset.range boxes.length,
      boxes.length - (i + 1) = boxes.length - 1 - i := by
    intro i _
    omega
  rw [Finset.sum_congr rfl h2]
  have h3 := Finset.sum_range_reflect (fun i => i) boxes.length
  simp only at h3
  rw [h3, Finset.sum_range_id, Nat.choose_two_right]

theorem pairRel_total : IsTotal Pair (fun a b : Pair => a.d ≤ b.d) :=
  ⟨fun a b => Int.le_total a.d b.d⟩

theorem pairRel_trans : IsTrans Pair (fun a b : Pair => a.d ≤ b.d) :=
  ⟨fun _ _ _ hab hbc => le_trans hab hbc⟩

theorem createSortedPairs_perm (boxes : List Box) :
    (createSortedPairs boxes).Perm (allPairs boxes) :=
  List.perm_insertionSort (fun a b : Pair => a.d ≤ b.d) (allPairs boxes)

theorem mem_createSortedPairs {boxes : List Box} {pr : Pair} :
    pr ∈ createSortedPairs boxes ↔
      pr.i < pr.j ∧ pr.j < boxes.length ∧
        pr.d = distanceSqrt (boxes.getD pr.i ⟨0, 0, 0⟩) (boxes.getD pr.j ⟨0, 0, 0⟩) := by
  rw [(createSortedPairs_perm boxes).mem_iff, mem_allPairs]

theorem createSortedPairs_length (boxes : List Box) :
    (createSortedPairs boxes).length = boxes.length.choose 2 := by
  rw [(createSortedPairs_perm boxes).length_eq, allPairs_length]

theorem createSortedPairs_nodup (boxes : List Box) :
    (createSortedPairs boxes).Nodup :=
  ((createSortedPairs_perm boxes).nodup_iff).mpr (allPairs_nodup boxes)

theorem createSortedPairs_sorted (boxes : List Box) :
    (createSortedPairs boxes).Sorted (fun a b : Pair => a.d ≤ b.d) :=
  @List.sorted_insertionSort Pair (fun a b : Pair => a.d ≤ b.d) _
    pairRel_total pairRel_trans (allPairs boxes)

theorem createSortedPairs_stable {boxes : List Box} {a b : Pair}
    (hsub : [a, b].Sublist (allPairs boxes)) (hd : a.d = b.d) :
    [a, b].Sublist (createSortedPairs boxes) :=
  List.pair_sublist_insertionSort (le_of_eq hd) hsub

/-! ### The edge budget of part1 -/

theorem qlt_maxC_iff (m n : ℕ) :
    ((m : ℚ) < min 1000 ((n : ℚ) / 2)) ↔ (m < min 1000 ((n + 1) / 2)) := by
  rw [lt_min_iff, Nat.lt_min]
  have h1 : ((m : ℚ) < 1000) ↔ m < 1000 := by
    constructor
    · intro h
      exact_mod_cast h
    · intro h
      exact_mod_cast h
  have h2 : ((m : ℚ) < (n : ℚ) / 2) ↔ m < (n + 1) / 2 := by
    rw [lt_div_iff₀ (by norm_num : (0 : ℚ) < 2)]
    constructor
    · intro h
      have h3 : m * 2 < n := by exact_mod_cast h
      omega
    · intro h
      have h3 : (m * 2 : ℕ) < n := by omega
      exact_mod_cast h3
  rw [h1, h2]

theorem part1Attempted_eq_take {C : ℕ} {maxC : ℚ}
    (hiff : ∀ m : ℕ, ((m : ℚ) < maxC) ↔ m < C) :
    ∀ (pairs : List Pair) (conn : ℕ),
      part1Attempted pairs conn maxC = pairs.take (C - conn) := by
  intro pairs
  induction pairs with
  | nil =>
    intro conn
    rw [List.take_nil]
    rfl
  | cons p rest ih =>
    intro conn
    unfold part1Attempted
    by_cases hc : (conn : ℚ) < maxC
    · rw [if_pos hc, ih (conn + 1)]
      have hlt : conn < C := (hiff conn).mp hc
      have heq : C - conn = (C - (conn + 1)) + 1 := by omega
      rw [heq, List.take_succ_cons]
    · rw [if_neg hc]
      have hge : ¬ conn < C := fun h => hc ((hiff conn).mpr h)
      have heq : C - conn = 0 := by omega
      rw [heq, List.take_zero]

theorem part1Loop_eq_foldl :
    ∀ (pairs : List Pair) (uf : UnionFind) (conn : ℕ) (maxC : ℚ),
      part1Loop pairs uf conn maxC =
        (part1Attempted pairs conn maxC).foldl
          (fun uf p => (uf.union p.i p.j).1) uf := by
  intro pairs
  induction pairs with
  | nil =>
    intro uf conn maxC
    rfl
  | cons p rest ih =>
    intro uf conn maxC
    unfold part1Loop part1Attempted
    by_cases hc : (conn : ℚ) < maxC
    · rw [if_pos hc, if_pos hc, List.foldl_cons, ih]
    · rw [if_neg hc, if_neg hc]
      rfl

theorem part1UF_eq_foldl_take (boxes : List Box) :
    part1UF boxes =
      ((createSortedPairs boxes).take (min 1000 ((boxes.length + 1) / 2))).foldl
        (fun uf p => (uf.union p.i p.j).1) (initUF boxes.length) := by
  unfold part1UF
  rw [part1Loop_eq_foldl,
    part1Attempted_eq_take (C := min 1000 ((boxes.length + 1) / 2))
      (fun m => qlt_maxC_iff m boxes.length)]
  rfl

theorem part1Attempted_length (boxes : List Box) :
    (part1Attempted (createSortedPairs boxes) 0
        (min 1000 ((boxes.length : ℚ) / 2))).length =
      min (min 1000 ((boxes.length + 1) / 2)) (createSortedPairs boxes).length := by
  rw [part1Attempted_eq_take (C := min 1000 ((boxes.length + 1) / 2))
    (fun m => qlt_maxC_iff m boxes.length)]
  rw [Nat.sub_zero, List.length_take]

theorem part1UF_inv (boxes : List Box) : ForestInv (part1UF boxes) := by
  rw [part1UF_eq_foldl_take]
  generalize (createSortedPairs boxes).take (min 1000 ((boxes.length + 1) / 2)) = l
  generalize hstart : initUF boxes.length = uf0
  have h0 : ForestInv uf0 := hstart ▸ initUF_inv boxes.length
  clear hstart
  induction l generalizing uf0 with
  | nil => exact h0
  | cons p rest ih =>
    rw [List.foldl_cons]
    exact ih _ (union_inv h0 p.i p.j)

theorem part1UF_length (boxes : List Box) :
    (part1UF boxes).parent.length = boxes.length := by
  rw [part1UF_eq_foldl_take]
  generalize (createSortedPairs boxes).take (min 1000 ((boxes.length + 1) / 2)) = l
  generalize hstart : initUF boxes.length = uf0
  have h0 : ForestInv uf0 := hstart ▸ initUF_inv boxes.length
  have hlen : uf0.parent.length = boxes.length := by
    rw [← hstart]
    exact List.length_range boxes.length
  clear hstart
  induction l generalizing uf0 with
  | nil => exact hlen
  | cons p rest ih =>
    rw [List.foldl_cons]
    exact ih _ (union_inv h0 p.i p.j)
      ((union_parent_length h0 p.i p.j).trans hlen)

/-! ### The insertion-ordered tally map of part1 -/

theorem mget_mapIncr (m : List (ℕ × ℕ)) (k q : ℕ) :
    mget (mapIncr m k) q =
      if q = k then some ((mget m k).getD 0 + 1) else mget m q := by
  induction m with
  | nil =>
    by_cases h : q = k
    · simp [mapIncr, mget, h]
    · simp [mapIncr, mget, h, Ne.symm h]
  | cons e rest ih =>
    obtain ⟨k', v⟩ := e
    by_cases hk : k' = k
    · subst hk
      by_cases hq : q = k'
      · subst hq
        simp [mapIncr, mget]
      · simp [mapIncr, mget, Ne.symm hq, hq]
    · by_cases hq : k' = q
      · subst hq
        simp [mapIncr, mget, hk]
      · simp only [mapIncr, if_neg hk, mget, if_neg hq]
        rw [ih]

theorem mget_none_iff (m : List (ℕ × ℕ)) (q : ℕ) :
    mget m q = none ↔ q ∉ m.map Prod.fst := by
  induction m with
  | nil => simp [mget]
  | cons e rest ih =>
    obtain ⟨k', v⟩ := e
    by_cases h : k' = q
    · subst h
      simp [mget]
    · simp only [mget, if_neg h, List.map_cons, List.mem_cons]
      rw [ih]
      constructor
      · intro hq hmem
        rcases hmem with hmem | hmem
        · exact h hmem.symm
        · exact hq hmem
      · intro hq
        exact fun hmem => hq (Or.inr hmem)

theorem mapIncr_fst_some {m : List (ℕ × ℕ)} {k : ℕ} (h : mget m k ≠ none) :
    (mapIncr m k).map Prod.fst = m.map Prod.fst := by
  induction m with
  | nil => simp [mget] at h
  | cons e rest ih =>
    obtain ⟨k', v⟩ := e
    by_cases hk : k' = k
    · subst hk
      simp [mapIncr]
    · rw [mget, if_neg hk] at h
      simp only [mapIncr, if_neg hk, List.map_cons]
      rw [ih h]

theorem mapIncr_fst_none {m : List (ℕ × ℕ)} {k : ℕ} (h : mget m k = none) :
    (mapIncr m k).map Prod.fst = m.map Prod.fst ++ [k] := by
  induction m with
  | nil => simp [mapIncr]
  | cons e rest ih =>
    obtain ⟨k', v⟩ := e
    by_cases hk : k' = k
    · subst hk
      rw [mget, if_pos rfl] at h
      exact absurd h (by simp)
    · rw [mget, if_neg hk] at h
      simp only [mapIncr, if_neg hk, List.map_cons]
      rw [ih h]
      rfl

theorem mapIncr_fst_nodup {m : List (ℕ × ℕ)} {k : ℕ}
    (h : (m.map Prod.fst).Nodup) : ((mapIncr m k).map Prod.fst).Nodup := by
  by_cases hm : mget m k = none
  · rw [mapIncr_fst_none hm]
    have hk : k ∉ m.map Prod.fst := (mget_none_iff m k).mp hm
    simp [List.nodup_append, h, hk]
  · rw [mapIncr_fst_some hm]
    exact h

theorem mget_of_mem_nodup {m : List (ℕ × ℕ)} {e : ℕ × ℕ}
    (hnd : (m.map Prod.fst).Nodup) (he : e ∈ m) : mget m e.1 = some e.2 := by
  induction m with
  | nil => simp at he
  | cons f rest ih =>
    obtain ⟨k', v⟩ := f
    rw [List.map_cons, List.nodup_cons] at hnd
    rcases List.mem_cons.mp he with rfl | hmem
    · rw [mget, if_pos rfl]
    · have hk : k' ≠ e.1 := by
        intro h
        apply hnd.1
        rw [h]
        exact List.mem_map.mpr ⟨e, hmem, rfl⟩
      rw [mget, if_neg hk]
      exact ih hnd.2 hmem

theorem tallyLoop_spec :
    ∀ (is : List ℕ) (uf : UnionFind) (acc : List (ℕ × ℕ)), ForestInv uf →
      ForestInv (tallyLoop uf is acc).1 ∧
        (tallyLoop uf is acc).1.parent.length = uf.parent.length ∧
        (∀ y, rootOf (tallyLoop uf is acc).1.parent y = rootOf uf.parent y) ∧
        (∀ q, (mget (tallyLoop uf is acc).2 q).getD 0 =
          (mget acc q).getD 0 +
            (is.filter (fun i => rootOf uf.parent i = q)).length) ∧
        (∀ q, mget (tallyLoop uf is acc).2 q = none ↔
          (mget acc q = none ∧
            (is.filter (fun i => rootOf uf.parent i = q)).length = 0)) ∧
        ((acc.map Prod.fst).Nodup → ((tallyLoop uf is acc).2.map Prod.fst).Nodup) := by
  intro is
  induction is with
  | nil =>
    intro uf acc hI
    refine ⟨hI, rfl, fun y => rfl, ?_, ?_, fun h => h⟩
    · intro q
      simp [tallyLoop]
    · intro q
      simp [tallyLoop]
  | cons i rest ih =>
    intro uf acc hI
    have hstep : tallyLoop uf (i :: rest) acc =
        tallyLoop (uf.find i).1 rest (mapIncr acc (uf.find i).2) := rfl
    have hIf : ForestInv (uf.find i).1 := find_fst_inv hI i
    have hsnd : (uf.find i).2 = rootOf uf.parent i := find_snd_rootOf hI i
    obtain ⟨jInv, jLen, jRoots, jCnt, jNone, jNodup⟩ :=
      ih (uf.find i).1 (mapIncr acc (uf.find i).2) hIf
    have hfilter : ∀ q, rest.filter (fun j => rootOf (uf.find i).1.parent j = q) =
        rest.filter (fun j => rootOf uf.parent j = q) := by
      intro q
      apply List.filter_congr
      intro x _
      simp only [find_fst_roots hI i x]
    rw [hstep]
    refine ⟨jInv, jLen.trans (find_fst_length hI i), ?_, ?_, ?_, ?_⟩
    · intro y
      exact (jRoots y).trans (find_fst_roots hI i y)
    · intro q
      rw [jCnt q, hfilter q, mget_mapIncr, List.filter_cons]
      by_cases hq : q = rootOf uf.parent i
      · rw [if_pos (by rw [hsnd]; exact hq)]
        have hpi : (decide (rootOf uf.parent i = q)) = true := by
          rw [hq]
          simp
        rw [if_pos hpi]
        simp only [Option.getD_some, List.length_cons]
        rw [hsnd, ← hq]
        omega
      · rw [if_neg (by rw [hsnd]; exact hq)]
        have hpi : ¬ (decide (rootOf uf.parent i = q)) = true := by
          simp only [decide_eq_true_eq]
          exact fun h => hq h.symm
        rw [if_neg hpi]
    · intro q
      rw [jNone q, hfilter q, mget_mapIncr, List.filter_cons]
      by_cases hq : q = rootOf uf.parent i
      · rw [if_pos (by rw [hsnd]; exact hq)]
        have hpi : (decide (rootOf uf.parent i = q)) = true := by
          rw [hq]
          simp
        rw [if_pos hpi]
        simp
      · rw [if_neg (by rw [hsnd]; exact hq)]
        have hpi : ¬ (decide (rootOf uf.parent i = q)) = true := by
          simp only [decide_eq_true_eq]
          exact fun h => hq h.symm
        rw [if_neg hpi]
    · intro h
      exact jNodup (mapIncr_fst_nodup h)

/-! ### The tally of part1 computes the component-size multiset -/

theorem range_filter_card (n q : ℕ) (p : List ℕ) :
    ((List.range n).filter (fun i => rootOf p i = q)).length =
      ((Finset.range n).filter (fun i => rootOf p i = q)).card := rfl

theorem descRel_total : IsTotal ℕ (fun a b : ℕ => b ≤ a) :=
  ⟨fun a b => Nat.le_total b a⟩

theorem descRel_trans : IsTrans ℕ (fun a b : ℕ => b ≤ a) :=
  ⟨fun _ _ _ hab hbc => le_trans hbc hab⟩

theorem tally_snd_multiset (boxes : List Box) :
    ((((tallyLoop (part1UF boxes) (List.range boxes.length) []).2.map Prod.snd) :
        List ℕ) : Multiset ℕ) = specSizes boxes ∧
      ((tallyLoop (part1UF boxes) (List.range boxes.length) []).2).length =
        (rootSet (part1UF boxes).parent).card := by
  have hI := part1UF_inv boxes
  have hn : (part1UF boxes).parent.length = boxes.length := part1UF_length boxes
  obtain ⟨-, -, -, jCnt, jNone, jNodup⟩ :=
    tallyLoop_spec (List.range boxes.length) (part1UF boxes) [] hI
  set T := (tallyLoop (part1UF boxes) (List.range boxes.length) []).2 with hT
  have hkeysnd : (T.map Prod.fst).Nodup := jNodup (by simp)
  have hcount : ∀ q, ((List.range boxes.length).filter
      (fun i => rootOf (part1UF boxes).parent i = q)).length =
      componentCard (part1UF boxes).parent q := by
    intro q
    rw [range_filter_card]
    unfold componentCard
    rw [hn]
  have hmem : ∀ q, q ∈ T.map Prod.fst ↔ q ∈ rootSet (part1UF boxes).parent := by
    intro q
    rw [← not_iff_not, ← mget_none_iff, jNone q]
    simp only [mget, true_and]
    rw [hcount q]
    unfold componentCard
    rw [Finset.card_eq_zero, rootSet]
    constructor
    · intro hfe hmem
      rw [Finset.mem_image] at hmem
      obtain ⟨i, hi, hroot⟩ := hmem
      have : i ∈ (Finset.range (part1UF boxes).parent.length).filter
          (fun i => rootOf (part1UF boxes).parent i = q) := by
        rw [Finset.mem_filter]
        rw [hn] at hi ⊢
        exact ⟨hi, hroot⟩
      rw [hfe] at this
      simp at this
    · intro hq
      rw [Finset.eq_empty_iff_forall_not_mem]
      intro i hi
      rw [Finset.mem_filter] at hi
      exact hq (Finset.mem_image.mpr ⟨i, hi.1, hi.2⟩)
  have hval : ∀ e ∈ T, e.2 = componentCard (part1UF boxes).parent e.1 := by
    intro e he
    have h1 : mget T e.1 = some e.2 := mget_of_mem_nodup hkeysnd he
    have h2 := jCnt e.1
    rw [h1] at h2
    simp only [Option.getD_some, mget, Option.getD_none] at h2
    rw [h2, Nat.zero_add, hcount e.1]
  have hkeys : ((T.map Prod.fst : List ℕ) : Multiset ℕ) =
      (rootSet (part1UF boxes).parent).val := by
    rw [Multiset.Nodup.ext (Multiset.coe_nodup.mpr hkeysnd)
      (rootSet (part1UF boxes).parent).nodup]
    intro a
    rw [Multiset.mem_coe, hmem a]
    rfl
  constructor
  · have h1 : T.map Prod.snd =
        T.map (fun e => componentCard (part1UF boxes).parent e.1) :=
      List.map_congr_left hval
    have h2 : T.map (fun e => componentCard (part1UF boxes).parent e.1) =
        (T.map Prod.fst).map (componentCard (part1UF boxes).parent) := by
      rw [List.map_map]
      rfl
    rw [h1, h2]
    unfold specSizes
    rw [← hkeys, Multiset.map_coe]
  · have h1 : T.length = (T.map Prod.fst).length := (List.length_map _ _).symm
    rw [h1, Finset.card_def, ← hkeys]
    rfl

theorem part1Sizes_multiset (boxes : List Box) :
    ((part1Sizes boxes : List ℕ) : Multiset ℕ) = specSizes boxes := by
  unfold part1Sizes
  rw [Multiset.coe_eq_coe.mpr (List.perm_insertionSort _ _)]
  exact (tally_snd_multiset boxes).1

theorem part1Sizes_sorted (boxes : List Box) :
    (part1Sizes boxes).Sorted (fun a b : ℕ => b ≤ a) :=
  @List.sorted_insertionSort ℕ (fun a b : ℕ => b ≤ a) _
    descRel_total descRel_trans _

theorem part1Sizes_length (boxes : List Box) :
    (part1Sizes boxes).length = (rootSet (part1UF boxes).parent).card := by
  unfold part1Sizes
  rw [List.length_insertionSort, List.length_map]
  exact (tally_snd_multiset boxes).2

theorem part1_isSome_iff (boxes : List Box) :
    (part1 boxes).isSome = true ↔ 3 ≤ (rootSet (part1UF boxes).parent).card := by
  rw [← part1Sizes_length]
  unfold part1
  cases h : part1Sizes boxes with
  | nil => simp
  | cons s0 t0 =>
    cases t0 with
    | nil => simp
    | cons s1 t1 =>
      cases t1 with
      | nil => simp
      | cons s2 t2 =>
        simp only [Option.isSome_some, List.length_cons, true_iff]
        omega

/-! ### The short-circuiting loop of part2 -/

theorem part2Step_frozen {boxes : List Box} {s : P2State} (h : ¬ 1 < s.components)
    (p : Pair) : part2Step boxes s p = s := by
  unfold part2Step
  rw [if_neg h]

theorem part2_foldl_frozen {boxes : List Box} :
    ∀ (pairs : List Pair) (s : P2State), ¬ 1 < s.components →
      pairs.foldl (part2Step boxes) s = s := by
  intro pairs
  induction pairs with
  | nil =>
    intro s _
    rfl
  | cons p rest ih =>
    intro s h
    rw [List.foldl_cons, part2Step_frozen h p]
    exact ih s h

theorem part2_bridge_step {boxes : List Box} {s : P2State} {p : Pair}
    (h2 : s.components = 2) (hm : (s.uf.union p.i p.j).2 = true) :
    part2Step boxes s p =
      ⟨(s.uf.union p.i p.j).1, 1,
        (boxes.getD p.i ⟨0, 0, 0⟩).x * (boxes.getD p.j ⟨0, 0, 0⟩).x⟩ := by
  unfold part2Step
  rw [if_pos (by omega)]
  simp only [hm, if_pos, h2]

theorem part2_bridge_foldl {boxes : List Box} {s : P2State} {p : Pair}
    (h2 : s.components = 2) (hm : (s.uf.union p.i p.j).2 = true)
    (post : List Pair) :
    ((p :: post).foldl (part2Step boxes) s).result =
      (boxes.getD p.i ⟨0, 0, 0⟩).x * (boxes.getD p.j ⟨0, 0, 0⟩).x := by
  rw [List.foldl_cons, part2_bridge_step h2 hm,
    part2_foldl_frozen post _ (by simp)]

/-! ### The claims -/

/-- C1, counterexample: on the 3-point input [0,0,0], [1,0,0], [2,0,0] the
budget loop of part1 attempts a union on 2 pairs, not on
min(1000, floor(3/2)) = 1 of them as the claim predicts: the source computes
length / 2 with real division (1.5) and keeps looping while the attempt
counter is strictly below it, admitting ceil(N/2) attempts for odd N. -/
theorem spec_c1_counterexample :
    ¬ ((part1Attempted
          (createSortedPairs [⟨0, 0, 0⟩, ⟨1, 0, 0⟩, ⟨2, 0, 0⟩]) 0
          (min 1000 ((([⟨0, 0, 0⟩, ⟨1, 0, 0⟩, ⟨2, 0, 0⟩] : List Box).length : ℚ) / 2))).length =
        min (min 1000 (([⟨0, 0, 0⟩, ⟨1, 0, 0⟩, ⟨2, 0, 0⟩] : List Box).length / 2))
          (createSortedPairs [⟨0, 0, 0⟩, ⟨1, 0, 0⟩, ⟨2, 0, 0⟩]).length) := by
  intro h
  rw [part1Attempted_length, createSortedPairs_length] at h
  revert h
  decide

/-- C1, amended: the budget loop of part1 attempts a union on exactly the
first K = min(1000, ceil(N/2)) pairs of the sorted candidate list (fewer
only if fewer pairs exist, which take models), every attempted union
consuming one unit of budget whether or not it merges; the forest part1
then queries is exactly the fold of union over that prefix. -/
theorem spec_c1 (boxes : List Box) :
    part1Attempted (createSortedPairs boxes) 0
        (min 1000 ((boxes.length : ℚ) / 2)) =
      (createSortedPairs boxes).take (min 1000 ((boxes.length + 1) / 2)) ∧
    part1UF boxes =
      ((createSortedPairs boxes).take (min 1000 ((boxes.length + 1) / 2))).foldl
        (fun uf p => (uf.union p.i p.j).1) (initUF boxes.length) ∧
    (part1Attempted (createSortedPairs boxes) 0
        (min 1000 ((boxes.length : ℚ) / 2))).length =
      min (min 1000 ((boxes.length + 1) / 2)) (createSortedPairs boxes).length := by
  refine ⟨?_, part1UF_eq_foldl_take boxes, part1Attempted_length boxes⟩
  rw [part1Attempted_eq_take (C := min 1000 ((boxes.length + 1) / 2))
    (fun m => qlt_maxC_iff m boxes.length)]
  rw [Nat.sub_zero]

/-- C2: the candidate list of createSortedPairs is a permutation of the
enumeration of all C(N,2) pairs (i, j), i < j, each weighted by the squared
Euclidean distance of the two points; it is sorted ascending by weight, and
any two pairs in enumeration order with equal weight keep that order in the
sorted list (stability); the enumeration itself is in lexicographic
(i outer, j inner) order. -/
theorem spec_c2 (boxes : List Box) :
    (createSortedPairs boxes).Perm (allPairs boxes) ∧
    (∀ pr : Pair, pr ∈ createSortedPairs boxes ↔
      pr.i < pr.j ∧ pr.j < boxes.length ∧
        pr.d = distanceSqrt (boxes.getD pr.i ⟨0, 0, 0⟩) (boxes.getD pr.j ⟨0, 0, 0⟩)) ∧
    (createSortedPairs boxes).length = boxes.length.choose 2 ∧
    (createSortedPairs boxes).Nodup ∧
    (createSortedPairs boxes).Sorted (fun a b : Pair => a.d ≤ b.d) ∧
    (∀ a b : Pair, [a, b].Sublist (allPairs boxes) → a.d = b.d →
      [a, b].Sublist (createSortedPairs boxes)) ∧
    (allPairs boxes).Pairwise enumBefore :=
  ⟨createSortedPairs_perm boxes,
    fun pr => mem_createSortedPairs,
    createSortedPairs_length boxes,
    createSortedPairs_nodup boxes,
    createSortedPairs_sorted boxes,
    fun a b hsub hd => createSortedPairs_stable hsub hd,
    allPairs_pairwise_enum boxes⟩

/-- C7: an input that never becomes a single connected component (exactly
the inputs with at most one point, since with two or more points every pair
is a candidate and the walk always connects them) makes part2 return the
sentinel 0: its loop never executes a merge, so the result accumulator is
never overwritten. -/
theorem spec_c7 (boxes : List Box) (h : boxes.length ≤ 1) : part2 boxes = 0 := by
  match boxes, h with
  | [], _ => rfl
  | [b], _ => rfl

/-- C7 witness: the empty input and a one-point input both return 0. -/
theorem spec_c7_witness :
    ([] : List Box).length ≤ 1 ∧ part2 [] = 0 ∧
      ([⟨5, 5, 5⟩] : List Box).length ≤ 1 ∧ part2 [⟨5, 5, 5⟩] = 0 :=
  ⟨by decide, spec_c7 [] (by decide), by decide, spec_c7 [⟨5, 5, 5⟩] (by decide)⟩

/-- C9: both queries are pure functions of the parsed input: running either
twice on the same input (each run building its own fresh forest and
candidate list, as runTwice does) returns the same answer both times. -/
theorem spec_c9 (boxes : List Box) :
    runTwice part1 boxes = (part1 boxes, part1 boxes) ∧
    (runTwice part1 boxes).1 = (runTwice part1 boxes).2 ∧
    runTwice part2 boxes = (part2 boxes, part2 boxes) ∧
    (runTwice part2 boxes).1 = (runTwice part2 boxes).2 :=
  ⟨rfl, rfl, rfl, rfl⟩

/-- C10: part1 reads sizes[0], sizes[1], sizes[2] with plain indexing, so
its result is a well-defined integer (some value, rather than the NaN that
JavaScript produces from an out-of-bounds read, modelled as none) exactly
when at least 3 components remain after the budget is exhausted. -/
theorem spec_c10 (boxes : List Box) :
    ((part1 boxes).isSome = true ↔
      3 ≤ (rootSet (part1UF boxes).parent).card) ∧
    (part1 boxes = none ↔ (rootSet (part1UF boxes).parent).card < 3) := by
  refine ⟨part1_isSome_iff boxes, ?_⟩
  rw [← Option.not_isSome_iff_eq_none, part1_isSome_iff boxes]
  omega

/-- C3: whenever the walk of part2 reaches a pair p with exactly 2 live
components and the union at p merges them, part2 returns the product of
the x-coordinates of p's two points, and the pairs after p are never
evaluated: the result is the same whatever list follows p. -/
theorem spec_c3 (boxes : List Box) (pre post : List Pair) (p : Pair)
    (hsplit : createSortedPairs boxes = pre ++ p :: post)
    (h2 : (pre.foldl (part2Step boxes) (part2Init boxes)).components = 2)
    (hm : ((pre.foldl (part2Step boxes) (part2Init boxes)).uf.union p.i p.j).2 = true) :
    part2 boxes =
      (boxes.getD p.i ⟨0, 0, 0⟩).x * (boxes.getD p.j ⟨0, 0, 0⟩).x ∧
    ∀ post' : List Pair,
      ((pre ++ p :: post').foldl (part2Step boxes) (part2Init boxes)).result =
        part2 boxes := by
  have key : ∀ q : List Pair,
      ((pre ++ p :: q).foldl (part2Step boxes) (part2Init boxes)).result =
        (boxes.getD p.i ⟨0, 0, 0⟩).x * (boxes.getD p.j ⟨0, 0, 0⟩).x := by
    intro q
    rw [List.foldl_append]
    exact part2_bridge_foldl h2 hm q
  have hp2 : part2 boxes =
      (boxes.getD p.i ⟨0, 0, 0⟩).x * (boxes.getD p.j ⟨0, 0, 0⟩).x := by
    unfold part2
    rw [hsplit]
    exact key post
  refine ⟨hp2, fun post' => ?_⟩
  rw [key post', hp2]

/-- C3 witness: scenario 2 of the specification, points 0, 1, 2 on a line;
after union(0,1) two components remain, union(1,2) bridges them, and
part2 returns x1 * x2 = 1 * 2 = 2 without looking at the pair (0,2). -/
theorem spec_c3_witness :
    part2 [⟨0, 0, 0⟩, ⟨1, 0, 0⟩, ⟨2, 0, 0⟩] =
      (([⟨0, 0, 0⟩, ⟨1, 0, 0⟩, ⟨2, 0, 0⟩] : List Box).getD 1 ⟨0, 0, 0⟩).x *
        (([⟨0, 0, 0⟩, ⟨1, 0, 0⟩, ⟨2, 0, 0⟩] : List Box).getD 2 ⟨0, 0, 0⟩).x :=
  (spec_c3 [⟨0, 0, 0⟩, ⟨1, 0, 0⟩, ⟨2, 0, 0⟩] [⟨0, 1, 1⟩] [⟨0, 2, 4⟩] ⟨1, 2, 1⟩
    (by decide) (by decide) (by decide)).1

/-- C4: when at least 3 components remain after the budget, part1 returns
the product of the three largest component sizes: for any descending
ordering l of the multiset of component sizes (one entry per live root,
counting the indices whose find-root it is), part1 returns the product of
l's first three entries. -/
theorem spec_c4 (boxes : List Box) (l : List ℕ)
    (hsort : l.Sorted (fun a b : ℕ => b ≤ a))
    (hms : ((l : List ℕ) : Multiset ℕ) = specSizes boxes)
    (hcard : 3 ≤ (rootSet (part1UF boxes).parent).card) :
    part1 boxes = some (l.getD 0 0 * l.getD 1 0 * l.getD 2 0) := by
  have hperm : (part1Sizes boxes).Perm l :=
    Multiset.coe_eq_coe.mp ((part1Sizes_multiset boxes).trans hms.symm)
  haveI : IsAntisymm ℕ (fun a b : ℕ => b ≤ a) :=
    ⟨fun a b h1 h2 => Nat.le_antisymm h2 h1⟩
  have heq : part1Sizes boxes = l :=
    List.eq_of_perm_of_sorted hperm (part1Sizes_sorted boxes) hsort
  have hlen : 3 ≤ l.length := by
    rw [← heq, part1Sizes_length]
    exact hcard
  rcases l with _ | ⟨a, _ | ⟨b, _ | ⟨c, rest⟩⟩⟩
  · simp at hlen
  · simp at hlen
  · simp at hlen
  · unfold part1
    rw [heq]
    simp [List.getD]

/-- C4 helper: the forest part1 builds on the 6-point, 3-cluster input,
computed through the rational-free form of the budget. -/
theorem part1UF_ex6 :
    part1UF [⟨0, 0, 0⟩, ⟨1, 0, 0⟩, ⟨100, 0, 0⟩, ⟨101, 0, 0⟩,
        ⟨200, 0, 0⟩, ⟨201, 0, 0⟩] =
      ⟨[0, 0, 2, 2, 4, 4], [2, 1, 2, 1, 2, 1]⟩ := by
  rw [part1UF_eq_foldl_take]
  decide

/-- C4 witness: 6 points in 3 well-separated clusters of 2; the budget
min(1000, ceil(6/2)) = 3 applies exactly the three intra-cluster edges,
leaving components of sizes 2, 2, 2, and part1 returns 8. -/
theorem spec_c4_witness :
    part1 [⟨0, 0, 0⟩, ⟨1, 0, 0⟩, ⟨100, 0, 0⟩, ⟨101, 0, 0⟩,
        ⟨200, 0, 0⟩, ⟨201, 0, 0⟩] =
      some (([2, 2, 2] : List ℕ).getD 0 0 * ([2, 2, 2] : List ℕ).getD 1 0 *
        ([2, 2, 2] : List ℕ).getD 2 0) :=
  spec_c4 [⟨0, 0, 0⟩, ⟨1, 0, 0⟩, ⟨100, 0, 0⟩, ⟨101, 0, 0⟩, ⟨200, 0, 0⟩, ⟨201, 0, 0⟩]
    [2, 2, 2] (by decide)
    (by unfold specSizes; rw [part1UF_ex6]; decide)
    (by rw [part1UF_ex6]; decide)

/-- C5: for valid indices a, b of a well-formed forest, union(a, b) returns
true exactly when the roots of a and b differ (and false with the forest
left at the post-find state otherwise); on a merge the root of the strictly
smaller component is re-parented under the root of the larger one, the
winning root's recorded size becomes the sum of the two component sizes,
every index previously rooted at the loser is now rooted at the winner, and
on equal sizes root(b) is re-parented under root(a). -/
theorem spec_c5 (uf : UnionFind) (a b : ℕ) (hI : ForestInv uf)
    (ha : a < uf.parent.length) (hb : b < uf.parent.length) :
    ((uf.union a b).2 = true ↔ rootOf uf.parent a ≠ rootOf uf.parent b) ∧
    (rootOf uf.parent a = rootOf uf.parent b →
      uf.union a b = (((uf.find a).1.find b).1, false)) ∧
    (rootOf uf.parent a ≠ rootOf uf.parent b →
      pget (uf.union a b).1.parent
          (if componentCard uf.parent (rootOf uf.parent a) <
              componentCard uf.parent (rootOf uf.parent b)
            then rootOf uf.parent a else rootOf uf.parent b) =
        (if componentCard uf.parent (rootOf uf.parent a) <
            componentCard uf.parent (rootOf uf.parent b)
          then rootOf uf.parent b else rootOf uf.parent a) ∧
      sget (uf.union a b).1.size
          (if componentCard uf.parent (rootOf uf.parent a) <
              componentCard uf.parent (rootOf uf.parent b)
            then rootOf uf.parent b else rootOf uf.parent a) =
        componentCard uf.parent (rootOf uf.parent a) +
          componentCard uf.parent (rootOf uf.parent b) ∧
      (∀ y, rootOf (uf.union a b).1.parent y =
        if rootOf uf.parent y =
            (if componentCard uf.parent (rootOf uf.parent a) <
                componentCard uf.parent (rootOf uf.parent b)
              then rootOf uf.parent a else rootOf uf.parent b)
          then (if componentCard uf.parent (rootOf uf.parent a) <
                componentCard uf.parent (rootOf uf.parent b)
              then rootOf uf.parent b else rootOf uf.parent a)
          else rootOf uf.parent y) ∧
      (componentCard uf.parent (rootOf uf.parent a) =
          componentCard uf.parent (rootOf uf.parent b) →
        (if componentCard uf.parent (rootOf uf.parent a) <
            componentCard uf.parent (rootOf uf.parent b)
          then rootOf uf.parent b else rootOf uf.parent a) =
          rootOf uf.parent a)) := by
  refine ⟨union_snd_iff hI a b, fun heq => union_noop_spec hI heq, fun hne => ?_⟩
  obtain ⟨-, -, -, hroots, hpg, hsg⟩ := union_merge_full hI ha hb hne
  exact ⟨hpg, hsg, hroots, fun hceq => by rw [if_neg (by omega)]⟩

/-- C5 witness: a fresh forest of 4 singletons, a = 0, b = 1: the two roots
differ, the components both have size 1 (a tie), so root(1) is re-parented
under root(0) = 0 and the merged size is 2. -/
theorem spec_c5_witness :
    (((initUF 4).union 0 1).2 = true ↔
      rootOf (initUF 4).parent 0 ≠ rootOf (initUF 4).parent 1) ∧
    (rootOf (initUF 4).parent 0 = rootOf (initUF 4).parent 1 →
      (initUF 4).union 0 1 = ((((initUF 4).find 0).1.find 1).1, false)) ∧
    (rootOf (initUF 4).parent 0 ≠ rootOf (initUF 4).parent 1 →
      pget ((initUF 4).union 0 1).1.parent
          (if componentCard (initUF 4).parent (rootOf (initUF 4).parent 0) <
              componentCard (initUF 4).parent (rootOf (initUF 4).parent 1)
            then rootOf (initUF 4).parent 0 else rootOf (initUF 4).parent 1) =
        (if componentCard (initUF 4).parent (rootOf (initUF 4).parent 0) <
            componentCard (initUF 4).parent (rootOf (initUF 4).parent 1)
          then rootOf (initUF 4).parent 1 else rootOf (initUF 4).parent 0) ∧
      sget ((initUF 4).union 0 1).1.size
          (if componentCard (initUF 4).parent (rootOf (initUF 4).parent 0) <
              componentCard (initUF 4).parent (rootOf (initUF 4).parent 1)
            then rootOf (initUF 4).parent 1 else rootOf (initUF 4).parent 0) =
        componentCard (initUF 4).parent (rootOf (initUF 4).parent 0) +
          componentCard (initUF 4).parent (rootOf (initUF 4).parent 1) ∧
      (∀ y, rootOf ((initUF 4).union 0 1).1.parent y =
        if rootOf (initUF 4).parent y =
            (if componentCard (initUF 4).parent (rootOf (initUF 4).parent 0) <
                componentCard (initUF 4).parent (rootOf (initUF 4).parent 1)
              then rootOf (initUF 4).parent 0 else rootOf (initUF 4).parent 1)
          then (if componentCard (initUF 4).parent (rootOf (initUF 4).parent 0) <
                componentCard (initUF 4).parent (rootOf (initUF 4).parent 1)
              then rootOf (initUF 4).parent 1 else rootOf (initUF 4).parent 0)
          else rootOf (initUF 4).parent y) ∧
      (componentCard (initUF 4).parent (rootOf (initUF 4).parent 0) =
          componentCard (initUF 4).parent (rootOf (initUF 4).parent 1) →
        (if componentCard (initUF 4).parent (rootOf (initUF 4).parent 0) <
            componentCard (initUF 4).parent (rootOf (initUF 4).parent 1)
          then rootOf (initUF 4).parent 1 else rootOf (initUF 4).parent 0) =
          rootOf (initUF 4).parent 0)) :=
  spec_c5 (initUF 4) 0 1 (initUF_inv 4) (by decide) (by decide)

/-- C6: after any sequence of find and union calls on a fresh forest of n
singletons, every valid index reaches a self-parented root by following
parent links (n steps always suffice), that root is unique, find is
idempotent (two consecutive calls return the same root), and the size
recorded at the root of x counts exactly the indices whose find-root it
is. -/
theorem spec_c6 (n : ℕ) (ops : List UFOp) (x r r' : ℕ)
    (hx : x < (applyOps n ops).parent.length)
    (h1 : RootedAt (applyOps n ops).parent x r)
    (h2 : RootedAt (applyOps n ops).parent x r') :
    isRoot (applyOps n ops).parent
      (iterP (applyOps n ops).parent (applyOps n ops).parent.length x) ∧
    r = r' ∧
    (((applyOps n ops).find x).1.find x).2 = ((applyOps n ops).find x).2 ∧
    sget (applyOps n ops).size r = componentCard (applyOps n ops).parent r := by
  have hI : ForestInv (applyOps n ops) := applyOps_inv n ops
  refine ⟨?_, RootedAt.unique h1 h2, ?_, ?_⟩
  · obtain ⟨k, hk, hroot⟩ := hI.1.reach hx
    have hsplit : iterP (applyOps n ops).parent (applyOps n ops).parent.length x =
        iterP (applyOps n ops).parent ((applyOps n ops).parent.length - k)
          (iterP (applyOps n ops).parent k x) := by
      rw [← iterP_add]
      congr 1
      omega
    rw [hsplit, iterP_of_isRoot hroot]
    exact hroot
  · rw [find_snd_rootOf (find_fst_inv hI x) x, find_fst_roots hI x x,
      find_snd_rootOf hI x]
  · have hrlt : r < (applyOps n ops).parent.length := by
      obtain ⟨-, k, hk⟩ := h1
      rw [← hk]
      exact hI.1.iterP_lt hx k
    exact hI.2 r hrlt h1.1

/-- C6 witness: n = 3 with the call sequence union(0,1), find(2),
union(1,2); index 1 is rooted at 0 (uniquely), find is idempotent at 1, and
the size recorded at root 0 is 3 = the number of indices rooted there. -/
theorem spec_c6_witness :
    isRoot (applyOps 3 [.unionOp 0 1, .findOp 2, .unionOp 1 2]).parent
      (iterP (applyOps 3 [.unionOp 0 1, .findOp 2, .unionOp 1 2]).parent
        (applyOps 3 [.unionOp 0 1, .findOp 2, .unionOp 1 2]).parent.length 1) ∧
    (0 : ℕ) = 0 ∧
    (((applyOps 3 [.unionOp 0 1, .findOp 2, .unionOp 1 2]).find 1).1.find 1).2 =
      ((applyOps 3 [.unionOp 0 1, .findOp 2, .unionOp 1 2]).find 1).2 ∧
    sget (applyOps 3 [.unionOp 0 1, .findOp 2, .unionOp 1 2]).size 0 =
      componentCard (applyOps 3 [.unionOp 0 1, .findOp 2, .unionOp 1 2]).parent 0 :=
  spec_c6 3 [.unionOp 0 1, .findOp 2, .unionOp 1 2] 1 0 0 (by decide)
    ⟨by decide, 1, by decide⟩ ⟨by decide, 1, by decide⟩

/-- C8: when the two finds inside union(a, b) return the same root, union
returns false and the resulting forest is exactly the state the two finds
left behind: the sizes are untouched (find never writes them) and no
connectivity changes (every index keeps its root). -/
theorem spec_c8 (uf : UnionFind) (a b : ℕ) (hI : ForestInv uf)
    (heq : (uf.find a).2 = ((uf.find a).1.find b).2) :
    uf.union a b = (((uf.find a).1.find b).1, false) ∧
    (uf.union a b).1.size = uf.size ∧
    (∀ y, rootOf (uf.union a b).1.parent y = rootOf uf.parent y) := by
  have h1 : uf.union a b = (((uf.find a).1.find b).1, false) := union_of_eq heq
  refine ⟨h1, ?_, ?_⟩
  · rw [h1]
    show ((uf.find a).1.find b).1.size = uf.size
    rw [find_fst_size (find_fst_inv hI a) b, find_fst_size hI a]
  · intro y
    rw [h1]
    show rootOf ((uf.find a).1.find b).1.parent y = rootOf uf.parent y
    rw [find_fst_roots (find_fst_inv hI a) b y, find_fst_roots hI a y]

/-- C8 witness: a fresh forest of 2 singletons with a = b = 0: both finds
return root 0, union returns false and the forest is unchanged. -/
theorem spec_c8_witness :
    (initUF 2).union 0 0 = ((((initUF 2).find 0).1.find 0).1, false) ∧
    ((initUF 2).union 0 0).1.size = (initUF 2).size ∧
    (∀ y, rootOf ((initUF 2).union 0 0).1.parent y = rootOf (initUF 2).parent y) :=
  spec_c8 (initUF 2) 0 0 (initUF_inv 2) (by decide)

/-! ### With at least one point, the part2 walk always ends fully connected -/

theorem union_preserves_rooteq {uf : UnionFind} (hI : ForestInv uf) (a b : ℕ)
    {x y : ℕ} (h : rootOf uf.parent x = rootOf uf.parent y) :
    rootOf (uf.union a b).1.parent x = rootOf (uf.union a b).1.parent y := by
  by_cases heq : rootOf uf.parent a = rootOf uf.parent b
  · rw [union_noop_spec hI heq]
    show rootOf ((uf.find a).1.find b).1.parent x =
      rootOf ((uf.find a).1.find b).1.parent y
    rw [find_fst_roots (find_fst_inv hI a) b, find_fst_roots hI a,
      find_fst_roots (find_fst_inv hI a) b, find_fst_roots hI a, h]
  · by_cases ha : a < uf.parent.length
    · by_cases hb : b < uf.parent.length
      · have hroots := (union_merge_full hI ha hb heq).2.2.2.1
        rw [hroots x, hroots y, h]
      · rw [(union_state_oob hI heq (Or.inr (by omega))).1]
        show rootOf ((uf.find a).1.find b).1.parent x =
          rootOf ((uf.find a).1.find b).1.parent y
        rw [find_fst_roots (find_fst_inv hI a) b, find_fst_roots hI a,
          find_fst_roots (find_fst_inv hI a) b, find_fst_roots hI a, h]
    · rw [(union_state_oob hI heq (Or.inl (by omega))).1]
      show rootOf ((uf.find a).1.find b).1.parent x =
        rootOf ((uf.find a).1.find b).1.parent y
      rw [find_fst_roots (find_fst_inv hI a) b, find_fst_roots hI a,
        find_fst_roots (find_fst_inv hI a) b, find_fst_roots hI a, h]

theorem union_connects {uf : UnionFind} (hI : ForestInv uf) {a b : ℕ}
    (ha : a < uf.parent.length) (hb : b < uf.parent.length) :
    rootOf (uf.union a b).1.parent a = rootOf (uf.union a b).1.parent b := by
  by_cases heq : rootOf uf.parent a = rootOf uf.parent b
  · exact union_preserves_rooteq hI a b heq
  · have hroots := (union_merge_full hI ha hb heq).2.2.2.1
    rw [hroots a, hroots b]
    by_cases hc : componentCard uf.parent (rootOf uf.parent a) <
        componentCard uf.parent (rootOf uf.parent b)
    · simp only [if_pos hc, if_pos rfl, if_neg (Ne.symm heq)]
      simp
    · simp only [if_neg hc, if_pos rfl, if_neg heq]
      simp

theorem union_rootSet {uf : UnionFind} (hI : ForestInv uf) {a b : ℕ}
    (ha : a < uf.parent.length) (hb : b < uf.parent.length)
    (hne : rootOf uf.parent a ≠ rootOf uf.parent b) :
    (rootSet (uf.union a b).1.parent).card = (rootSet uf.parent).card - 1 ∧
      1 ≤ (rootSet uf.parent).card := by
  obtain ⟨-, -, hlen, hroots, -, -⟩ := union_merge_full hI ha hb hne
  set L := (if componentCard uf.parent (rootOf uf.parent a) <
      componentCard uf.parent (rootOf uf.parent b)
    then rootOf uf.parent a else rootOf uf.parent b) with hL
  set W := (if componentCard uf.parent (rootOf uf.parent a) <
      componentCard uf.parent (rootOf uf.parent b)
    then rootOf uf.parent b else rootOf uf.parent a) with hW
  have hmemL : L ∈ rootSet uf.parent := by
    rw [hL]
    unfold rootSet
    by_cases hc : componentCard uf.parent (rootOf uf.parent a) <
        componentCard uf.parent (rootOf uf.parent b)
    · rw [if_pos hc]
      exact Finset.mem_image.mpr ⟨a, Finset.mem_range.mpr ha, rfl⟩
    · rw [if_neg hc]
      exact Finset.mem_image.mpr ⟨b, Finset.mem_range.mpr hb, rfl⟩
  have hmemW : W ∈ rootSet uf.parent := by
    rw [hW]
    unfold rootSet
    by_cases hc : componentCard uf.parent (rootOf uf.parent a) <
        componentCard uf.parent (rootOf uf.parent b)
    · rw [if_pos hc]
      exact Finset.mem_image.mpr ⟨b, Finset.mem_range.mpr hb, rfl⟩
    · rw [if_neg hc]
      exact Finset.mem_image.mpr ⟨a, Finset.mem_range.mpr ha, rfl⟩
  have hWL : W ≠ L := by
    rw [hW, hL]
    by_cases hc : componentCard uf.parent (rootOf uf.parent a) <
        componentCard uf.parent (rootOf uf.parent b)
    · rw [if_pos hc, if_pos hc]
      exact Ne.symm hne
    · rw [if_neg hc, if_neg hc]
      exact hne
  have hset : rootSet (uf.union a b).1.parent = (rootSet uf.parent).erase L := by
    unfold rootSet
    rw [hlen]
    ext t
    rw [Finset.mem_image, Finset.mem_erase]
    constructor
    · rintro ⟨i, hi, hroot⟩
      rw [hroots i] at hroot
      by_cases hil : rootOf uf.parent i = L
      · rw [if_pos hil] at hroot
        subst hroot
        refine ⟨hWL, ?_⟩
        rw [← rootSet]
        exact hmemW
      · rw [if_neg hil] at hroot
        subst hroot
        refine ⟨hil, ?_⟩
        exact Finset.mem_image.mpr ⟨i, hi, rfl⟩
    · rintro ⟨htL, hmem⟩
      rw [← rootSet] at hmem
      unfold rootSet at hmem
      obtain ⟨i, hi, hroot⟩ := Finset.mem_image.mp hmem
      refine ⟨i, hi, ?_⟩
      rw [hroots i, hroot, if_neg htL]
  constructor
  · rw [hset]
    exact Finset.card_erase_of_mem hmemL
  · exact Finset.card_pos.mpr ⟨L, hmemL⟩

theorem initUF_rootOf {n x : ℕ} (hx : x < n) : rootOf (initUF n).parent x = x := by
  have hplen : (initUF n).parent.length = n := List.length_range n
  have hpget : pget (initUF n).parent x = x := by
    rw [pget_lt_length (by rw [hplen]; exact hx)]
    simp [initUF]
  exact rootF_of_isRoot hpget _

theorem initUF_rootSet (n : ℕ) : rootSet (initUF n).parent = Finset.range n := by
  unfold rootSet
  rw [show (initUF n).parent.length = n from List.length_range n]
  ext t
  rw [Finset.mem_image]
  constructor
  · rintro ⟨i, hi, hroot⟩
    rw [initUF_rootOf (Finset.mem_range.mp hi)] at hroot
    rw [← hroot]
    exact hi
  · intro ht
    exact ⟨t, ht, initUF_rootOf (Finset.mem_range.mp ht)⟩

theorem part2Step_uf (boxes : List Box) (s : P2State) (p : Pair) :
    (part2Step boxes s p).uf =
      if 1 < s.components then (s.uf.union p.i p.j).1 else s.uf := by
  unfold part2Step
  by_cases h : 1 < s.components
  · rw [if_pos h, if_pos h]
    by_cases hu : (s.uf.union p.i p.j).2 <;> simp [hu]
  · rw [if_neg h, if_neg h]

theorem part2Step_components (boxes : List Box) (s : P2State) (p : Pair) :
    (part2Step boxes s p).components =
      if 1 < s.components ∧ (s.uf.union p.i p.j).2 = true
        then s.components - 1 else s.components := by
  unfold part2Step
  by_cases h : 1 < s.components
  · by_cases hu : (s.uf.union p.i p.j).2 = true
    · simp [h, hu]
    · simp [h, hu]
  · simp [h]

theorem part2_foldl_rooteq {boxes : List Box} :
    ∀ (pairs : List Pair) (s : P2State), ForestInv s.uf →
      ∀ x y, rootOf s.uf.parent x = rootOf s.uf.parent y →
      rootOf ((pairs.foldl (part2Step boxes) s)).uf.parent x =
        rootOf ((pairs.foldl (part2Step boxes) s)).uf.parent y := by
  intro pairs
  induction pairs with
  | nil =>
    intro s _ x y h
    exact h
  | cons p rest ih =>
    intro s hI x y h
    rw [List.foldl_cons]
    have hInv' : ForestInv (part2Step boxes s p).uf := by
      rw [part2Step_uf]
      by_cases hg : 1 < s.components
      · rw [if_pos hg]
        exact union_inv hI p.i p.j
      · rw [if_neg hg]
        exact hI
    apply ih (part2Step boxes s p) hInv' x y
    rw [part2Step_uf]
    by_cases hg : 1 < s.components
    · rw [if_pos hg]
      exact union_preserves_rooteq hI p.i p.j h
    · rw [if_neg hg]
      exact h

theorem part2_foldl_track {boxes : List Box} :
    ∀ (pairs : List Pair) (s : P2State), ForestInv s.uf →
      (∀ pr ∈ pairs, pr.i < s.uf.parent.length ∧ pr.j < s.uf.parent.length) →
      s.components = (rootSet s.uf.parent).card →
      ForestInv (pairs.foldl (part2Step boxes) s).uf ∧
        (pairs.foldl (part2Step boxes) s).uf.parent.length = s.uf.parent.length ∧
        (pairs.foldl (part2Step boxes) s).components =
          (rootSet (pairs.foldl (part2Step boxes) s).uf.parent).card ∧
        ((pairs.foldl (part2Step boxes) s).components = 1 ∨
          ∀ pr ∈ pairs,
            rootOf (pairs.foldl (part2Step boxes) s).uf.parent pr.i =
              rootOf (pairs.foldl (part2Step boxes) s).uf.parent pr.j) := by
  intro pairs
  induction pairs with
  | nil =>
    intro s hI _ hcard
    exact ⟨hI, rfl, hcard, Or.inr (fun pr hpr => absurd hpr (List.not_mem_nil pr))⟩
  | cons p rest ih =>
    intro s hI hvalid hcard
    rw [List.foldl_cons]
    by_cases hg : 1 < s.components
    · have hpi := (hvalid p (List.mem_cons_self p rest)).1
      have hpj := (hvalid p (List.mem_cons_self p rest)).2
      have hufstep : (part2Step boxes s p).uf = (s.uf.union p.i p.j).1 := by
        rw [part2Step_uf, if_pos hg]
      have hInv' : ForestInv (part2Step boxes s p).uf := by
        rw [hufstep]
        exact union_inv hI p.i p.j
      have hlen' : (part2Step boxes s p).uf.parent.length = s.uf.parent.length := by
        rw [hufstep]
        exact union_parent_length hI p.i p.j
      have hvalid' : ∀ pr ∈ rest, pr.i < (part2Step boxes s p).uf.parent.length ∧
          pr.j < (part2Step boxes s p).uf.parent.length := by
        intro pr hpr
        rw [hlen']
        exact hvalid pr (List.mem_cons_of_mem p hpr)
      have hcard' : (part2Step boxes s p).components =
          (rootSet (part2Step boxes s p).uf.parent).card := by
        rw [part2Step_components, hufstep]
        by_cases hu : (s.uf.union p.i p.j).2 = true
        · rw [if_pos ⟨hg, hu⟩]
          have hne := (union_snd_iff hI p.i p.j).mp hu
          obtain ⟨hdec, hpos⟩ := union_rootSet hI hpi hpj hne
          omega
        · rw [if_neg (fun hand => hu hand.2)]
          have heq : rootOf s.uf.parent p.i = rootOf s.uf.parent p.j := by
            by_contra hne
            exact hu ((union_snd_iff hI p.i p.j).mpr hne)
          rw [union_noop_spec hI heq]
          have hr : ∀ i, rootOf (((s.uf.find p.i).1.find p.j).1).parent i =
              rootOf s.uf.parent i := by
            intro i
            rw [find_fst_roots (find_fst_inv hI p.i) p.j, find_fst_roots hI p.i]
          have hl : (((s.uf.find p.i).1.find p.j).1).parent.length =
              s.uf.parent.length := by
            rw [find_fst_length (find_fst_inv hI p.i) p.j, find_fst_length hI p.i]
          rw [show rootSet (((s.uf.find p.i).1.find p.j).1).parent =
            rootSet s.uf.parent from rootSet_congr hl hr]
          exact hcard
      obtain ⟨fInv, fLen, fCard, fDisj⟩ := ih (part2Step boxes s p) hInv' hvalid' hcard'
      refine ⟨fInv, fLen.trans hlen', fCard, ?_⟩
      rcases fDisj with hone | hall
      · exact Or.inl hone
      · refine Or.inr ?_
        intro pr hpr
        rcases List.mem_cons.mp hpr with heq | hmem
        · rw [heq]
          apply part2_foldl_rooteq rest (part2Step boxes s p) hInv'
          rw [hufstep]
          exact union_connects hI hpi hpj
        · exact hall pr hmem
    · rw [part2Step_frozen hg p, part2_foldl_frozen rest s hg]
      refine ⟨hI, rfl, hcard, ?_⟩
      have hle : s.components ≤ 1 := by omega
      rcases Nat.lt_or_ge s.components 1 with h0 | h1
      · have hzero : s.components = 0 := by omega
        exfalso
        rw [hzero] at hcard
        have hcard0 : (rootSet s.uf.parent).card = 0 := hcard.symm
        have hpi := (hvalid p (List.mem_cons_self p rest)).1
        have hmem2 : rootOf s.uf.parent p.i ∈ rootSet s.uf.parent := by
          unfold rootSet
          exact Finset.mem_image.mpr ⟨p.i, Finset.mem_range.mpr hpi, rfl⟩
        rw [Finset.card_eq_zero] at hcard0
        rw [hcard0] at hmem2
        simp at hmem2
      · exact Or.inl (by omega)

theorem part2_connects (boxes : List Box) (h1 : 1 ≤ boxes.length) :
    ((createSortedPairs boxes).foldl (part2Step boxes)
      (part2Init boxes)).components = 1 := by
  have hplen : (part2Init boxes).uf.parent.length = boxes.length :=
    List.length_range boxes.length
  have hI : ForestInv (part2Init boxes).uf := initUF_inv boxes.length
  have hvalid : ∀ pr ∈ createSortedPairs boxes,
      pr.i < (part2Init boxes).uf.parent.length ∧
        pr.j < (part2Init boxes).uf.parent.length := by
    intro pr hpr
    obtain ⟨hij, hjn, -⟩ := mem_createSortedPairs.mp hpr
    rw [hplen]
    omega
  have hcard : (part2Init boxes).components =
      (rootSet (part2Init boxes).uf.parent).card := by
    show boxes.length = (rootSet (initUF boxes.length).parent).card
    rw [initUF_rootSet, Finset.card_range]
  obtain ⟨fInv, fLen, fCard, fDisj⟩ :=
    part2_foldl_track (createSortedPairs boxes) (part2Init boxes) hI hvalid hcard
  rcases fDisj with hone | hall
  · exact hone
  · set f := (createSortedPairs boxes).foldl (part2Step boxes) (part2Init boxes)
      with hf
    have hn : f.uf.parent.length = boxes.length := fLen.trans hplen
    have hconn : ∀ x y, x < boxes.length → y < boxes.length →
        rootOf f.uf.parent x = rootOf f.uf.parent y := by
      intro x y hx hy
      rcases Nat.lt_trichotomy x y with hxy | hxy | hxy
      · exact hall ⟨x, y, distanceSqrt (boxes.getD x ⟨0, 0, 0⟩) (boxes.getD y ⟨0, 0, 0⟩)⟩
          (mem_createSortedPairs.mpr ⟨hxy, hy, rfl⟩)
      · rw [hxy]
      · exact (hall ⟨y, x, distanceSqrt (boxes.getD y ⟨0, 0, 0⟩) (boxes.getD x ⟨0, 0, 0⟩)⟩
          (mem_createSortedPairs.mpr ⟨hxy, hx, rfl⟩)).symm
    have hsingle : rootSet f.uf.parent = {rootOf f.uf.parent 0} := by
      unfold rootSet
      rw [hn]
      ext t
      rw [Finset.mem_image, Finset.mem_singleton]
      constructor
      · rintro ⟨i, hi, hroot⟩
        rw [← hroot]
        exact hconn i 0 (Finset.mem_range.mp hi) (by omega)
      · intro ht
        exact ⟨0, Finset.mem_range.mpr (by omega), ht.symm⟩
    rw [fCard, hsingle, Finset.card_singleton]
